import Mathlib

/-!
# jsonpath: path navigation over a decoded JSON document

A shallow embedding of `jsonpath.go` (package `jsonpath`) and theorems about it.

Modelling conventions.

* A Go `string` is a Lean `String`, read through its list of characters `data`.  Every
  character the program inspects (`.`, `[`, `]`, and inside `strconv.Atoi` the sign and the
  decimal digits) is ASCII, so on UTF-8 text a byte position of the Go program holding one of
  them is a character position here.
* A Go `interface{}` produced by `json.Unmarshal` is a `JSON` tree.  A `map[string]interface{}`
  is an association list read with `mapIndex` (the first binding of a key is the binding).
* A Go `int` is 64 bits wide.  The program's own arithmetic (`-len(a)`, `len(a)+index`) cannot
  overflow, because `0 <= len(a) <= 2^63 - 1` and the operations are guarded by the range check;
  it is written over `Int`.  The arithmetic inside `strconv` that can wrap is written with an
  explicit modulus.
* A Go function returning `(T, error)` is a function into `Except Error T`.  A run-time panic
  (index or slice bounds out of range) is the distinguished value `Error.runtimePanic`; it is
  not an `error` the Go caller could receive, and the theorems treat it separately.
* `json.Unmarshal` is outside the repository: `Extract` takes it as a parameter.
-/

namespace JsonPath

/-! ## Data model -/

/-- A Go `float64`, kept as its IEEE-754 bit pattern. -/
structure Float64 where
  bits : Nat
deriving DecidableEq, Repr

/-- The dynamic values `json.Unmarshal` stores into an `interface{}`:
`nil`, `bool`, `float64`, `string`, `[]interface{}` and `map[string]interface{}`. -/
inductive JSON where
  | null : JSON
  | bool (b : Bool) : JSON
  | number (f : Float64) : JSON
  | string (s : String) : JSON
  | array (a : List JSON) : JSON
  | object (m : List (String × JSON)) : JSON

/-- The Go map read `v, ok := m[key]`: `none` is `ok == false`. -/
def mapIndex : List (String × JSON) → String → Option JSON
  | [], _ => none
  | (k, v) :: rest, key => if k = key then some v else mapIndex rest key

/-! ## The standard library functions the program calls -/

namespace strconv

/-- The two sentinel errors of package `strconv`: `ErrSyntax` and `ErrRange`. -/
inductive ErrKind where
  | ErrSyntax
  | ErrRange
deriving DecidableEq, Repr

/-- Go `*strconv.NumError`: the failing function, the input text and the sentinel. -/
structure NumError where
  Func : String
  Num : String
  Err : ErrKind
deriving DecidableEq, Repr

/-- The bytes `'0'..'9'`. -/
def isDigit (c : Char) : Bool := decide (48 ≤ c.toNat) && decide (c.toNat ≤ 57)

/-- The digit value `c - '0'`. -/
def digitVal (c : Char) : Nat := c.toNat - 48

/-- The largest `uint64`. -/
def maxUint64 : Nat := 2 ^ 64 - 1

/-- The loop of `ParseUint(s, 10, 64)`: `cutoff = maxUint64/10 + 1`, the multiplication and the
addition are `uint64` operations, and a wrapped sum is detected by `n1 < n`. -/
def parseUintLoop : Nat → List Char → Nat × Option ErrKind
  | n, [] => (n, none)
  | n, c :: cs =>
    if isDigit c then
      if n ≥ maxUint64 / 10 + 1 then (maxUint64, some .ErrRange)
      else
        let n10 := n * 10 % 2 ^ 64
        let n1 := (n10 + digitVal c) % 2 ^ 64
        if n1 < n10 ∨ n1 > maxUint64 then (maxUint64, some .ErrRange)
        else parseUintLoop n1 cs
    else (0, some .ErrSyntax)

/-- Go `strconv.ParseUint(s, 10, 64)`: the value and the sentinel error, if any. -/
def ParseUint (s : List Char) : Nat × Option ErrKind :=
  if s = [] then (0, some .ErrSyntax) else parseUintLoop 0 s

/-- The conversion `int64(x)` of an integer of at most 64 bits. -/
def toInt64 (x : Int) : Int := (x + 2 ^ 63) % 2 ^ 64 - 2 ^ 63

/-- Go `strconv.ParseInt(s, 10, 0)` on a 64-bit platform. -/
def ParseInt (s : List Char) : Int × Option ErrKind :=
  match s with
  | [] => (0, some .ErrSyntax)
  | c :: cs =>
    let neg := decide (c = '-')
    let s1 := if c = '+' ∨ c = '-' then cs else s
    match ParseUint s1 with
    | (_, some .ErrSyntax) => (0, some .ErrSyntax)
    | (un, _) =>
      let cutoff : Nat := 2 ^ 63
      if !neg && decide (un ≥ cutoff) then ((cutoff : Int) - 1, some .ErrRange)
      else if neg && decide (un > cutoff) then (-(cutoff : Int), some .ErrRange)
      else
        let n := toInt64 un
        (if neg then toInt64 (-n) else n, none)

/-- The digit loop of the fast path of `Atoi`: `n = n*10 + int(ch)`, `none` on a byte that
is not a digit. -/
def atoiFastLoop : Nat → List Char → Option Nat
  | n, [] => some n
  | n, c :: cs => if isDigit c then atoiFastLoop (n * 10 + digitVal c) cs else none

/-- Go `strconv.Atoi` on a 64-bit platform.  Inputs of 1 to 18 bytes take the fast path, which
cannot overflow; all others go through `ParseInt(s, 10, 0)`.  The error is a `NumError` with
`Func = "Atoi"` and `Num` the whole input. -/
def Atoi (s : String) : Except NumError Int :=
  let sLen := s.data.length
  if 0 < sLen ∧ sLen < 19 then
    match s.data with
    | [] => .error ⟨"Atoi", s, .ErrSyntax⟩
    | c :: cs =>
      let s1 := if c = '-' ∨ c = '+' then cs else c :: cs
      if s1.length < 1 then .error ⟨"Atoi", s, .ErrSyntax⟩
      else
        match atoiFastLoop 0 s1 with
        | none => .error ⟨"Atoi", s, .ErrSyntax⟩
        | some n => .ok (if c = '-' then -(n : Int) else (n : Int))
  else
    match ParseInt s.data with
    | (_, some e) => .error ⟨"Atoi", s, e⟩
    | (i64, none) => .ok i64

end strconv

namespace strings

/-- Splitting a character list at every occurrence of `sep`. -/
def splitChars (sep : Char) : List Char → List (List Char)
  | [] => [[]]
  | c :: cs =>
    if c = sep then [] :: splitChars sep cs
    else
      match splitChars sep cs with
      | [] => [[c]]
      | p :: ps => (c :: p) :: ps

/-- Go `strings.Split(s, sep)` for a one-character separator: the substrings between the
separators, one more than there are separators. -/
def Split (s : String) (sep : Char) : List String :=
  (splitChars sep s.data).map String.mk

end strings

/-! ## Errors -/

/-- The errors of the package, one constructor per `fmt.Errorf` format string (with the
arguments it formats), plus the decoder's error passed through. -/
inductive Error where
  /-- The error of `json.Unmarshal`, returned as is. -/
  | DecodeError (msg : String)
  /-- Format `"Empty field in path"`. -/
  | EmptySegmentError
  /-- Format `"No object found when looking for field %v"`. -/
  | NotAnObjectError (piece : String)
  /-- Format `"Field not found when looking for field %v"`. -/
  | FieldNotFoundError (piece : String)
  /-- Format `"Array index missing ']' in %v"`. -/
  | MalformedIndexError (piece : String)
  /-- Format `"No array found when looking for %v"`. -/
  | NotAnArrayError (piece : String)
  /-- Format `"Parsing array index %v gave %v"`. -/
  | InvalidIndexError (piece : String) (err : strconv.NumError)
  /-- Format `"Array index %v out of range %v"`. -/
  | IndexOutOfRangeError (index : Int) (len : Nat)
  /-- Formats `"Element [%v] is not a string."` and `"Element [%v] is not a number."`. -/
  | TypeMismatchError (expected : String) (actual : JSON)
  /-- A Go run-time panic: not a returned error. -/
  | runtimePanic (msg : String)

/-! ## The program -/

/-- Go `extractObject`. -/
def extractObject (jsonIface : JSON) (piece : String) : Except Error JSON :=
  match jsonIface with
  | .object m =>
    match mapIndex m piece with
    | none => .error (.FieldNotFoundError piece)
    | some rtn => .ok rtn
  | _ => .error (.NotAnObjectError piece)

/-- The Go slice expression `s[lo:hi]` on a string; `none` is the bounds panic. -/
def slice (s : String) (lo hi : Nat) : Option String :=
  if lo ≤ hi ∧ hi ≤ s.data.length then some (String.mk ((s.data.take hi).drop lo)) else none

/-- The Go index expression `a[i]` on a slice; a miss is the bounds panic. -/
def index (a : List JSON) (i : Int) : Except Error JSON :=
  if i < 0 then .error (.runtimePanic "index out of range")
  else
    match a[i.toNat]? with
    | some v => .ok v
    | none => .error (.runtimePanic "index out of range")

/-- Go `extractArray`. -/
def extractArray (jsonIface : JSON) (piece : String) : Except Error JSON :=
  match piece.data.getLast? with
  | none => .error (.runtimePanic "index out of range")
  | some last =>
    if last ≠ ']' then .error (.MalformedIndexError piece)
    else
      match jsonIface with
      | .array a =>
        match slice piece 1 (piece.data.length - 1) with
        | none => .error (.runtimePanic "slice bounds out of range")
        | some piece1 =>
          match strconv.Atoi piece1 with
          | .error err => .error (.InvalidIndexError piece1 err)
          | .ok idx =>
            if idx ≥ (a.length : Int) ∨ idx < -(a.length : Int) then
              .error (.IndexOutOfRangeError idx a.length)
            else if idx ≥ 0 then index a idx
            else index a ((a.length : Int) + idx)
      | _ => .error (.NotAnArrayError piece)

/-- The `for _, piece := range pieces` loop of `Extract`, started at the value `rtn`. -/
def walk : JSON → List String → Except Error JSON
  | rtn, [] => .ok rtn
  | rtn, piece :: pieces =>
    match piece.data with
    | [] => .error .EmptySegmentError
    | c :: _ =>
      if c = '[' then
        match extractArray rtn piece with
        | .error err => .error err
        | .ok rtn1 => walk rtn1 pieces
      else
        match extractObject rtn piece with
        | .error err => .error err
        | .ok rtn1 => walk rtn1 pieces

/-- Go `Extract`, over the decoder `unmarshal` (Go `json.Unmarshal` into an `interface{}`). -/
def Extract (unmarshal : List Nat → Except String JSON) (jsonStr : List Nat) (path : String) :
    Except Error JSON :=
  match unmarshal jsonStr with
  | .error err => .error (.DecodeError err)
  | .ok rtn => walk rtn (strings.Split path '.')

/-- Go `ExtractString`. -/
def ExtractString (unmarshal : List Nat → Except String JSON) (jsonStr : List Nat)
    (path : String) : Except Error String :=
  match Extract unmarshal jsonStr path with
  | .error err => .error err
  | .ok iface =>
    match iface with
    | .string str => .ok str
    | _ => .error (.TypeMismatchError "string" iface)

/-- Go `ExtractFloat64`. -/
def ExtractFloat64 (unmarshal : List Nat → Except String JSON) (jsonStr : List Nat)
    (path : String) : Except Error Float64 :=
  match Extract unmarshal jsonStr path with
  | .error err => .error err
  | .ok iface =>
    match iface with
    | .number flt => .ok flt
    | _ => .error (.TypeMismatchError "number" iface)

/-! ## Paths as lists of steps -/

/-- The decimal text of an integer, as Go `strconv.Itoa` writes it: the digits without leading
zeros, after a `-` when the integer is negative. -/
def strconv.Itoa (i : Int) : String :=
  if i < 0 then String.mk ('-' :: Nat.toDigits 10 i.natAbs)
  else String.mk (Nat.toDigits 10 i.natAbs)

/-- The index segment with bracket body `body`: `[` body `]`. -/
def indexSegment (body : String) : String := String.mk ('[' :: (body.data ++ [']']))

/-- Joining segments with `.` between them. -/
def joinChars : List String → List Char
  | [] => []
  | [s] => s.data
  | s :: t :: rest => s.data ++ '.' :: joinChars (t :: rest)

/-- The path whose segments are `segs`. -/
def joinPath (segs : List String) : String := String.mk (joinChars segs)

/-- The least Go `int` on a 64-bit platform. -/
def minInt : Int := -2 ^ 63

/-- The largest Go `int` on a 64-bit platform. -/
def maxInt : Int := 2 ^ 63 - 1

/-- One step of a path: a field key or an integer index. -/
inductive Step where
  | field (key : String)
  | index (i : Int)

/-- The segment that writes a step: the key itself, or the index in decimal between brackets. -/
def Step.segment : Step → String
  | .field key => key
  | .index i => indexSegment (strconv.Itoa i)

/-- The steps a path can write: a key that is non-empty, has no `.` and does not begin with
`[`, or an index that is a Go `int`. -/
def Step.wellFormed : Step → Prop
  | .field key => key.data ≠ [] ∧ '.' ∉ key.data ∧ key.data.head? ≠ some '['
  | .index i => minInt ≤ i ∧ i ≤ maxInt

/-- Specification: direct indexing by one step.  A key selects its binding in a mapping; an
index `i` selects in a sequence of length `n` when `-n <= i < n`, position `i` if `i >= 0` and
position `n + i` otherwise. -/
def specChild : JSON → Step → Option JSON
  | .object m, .field key => mapIndex m key
  | .array a, .index i =>
    if -(a.length : Int) ≤ i ∧ i < (a.length : Int) then
      if 0 ≤ i then a[i.toNat]? else a[((a.length : Int) + i).toNat]?
    else none
  | _, _ => none

/-- Specification: the value a list of steps resolves to under direct indexing. -/
def specResolve : JSON → List Step → Option JSON
  | d, [] => some d
  | d, s :: rest =>
    match specChild d s with
    | none => none
    | some d1 => specResolve d1 rest

/-! ## The program with a log of its lookups -/

/-- The loop of `Extract` (the function `walk`) with a ghost log: the segments for which
`extractArray` or `extractObject` was called, in order. -/
def walkTrace : JSON → List String → Except Error JSON × List String
  | rtn, [] => (.ok rtn, [])
  | rtn, piece :: pieces =>
    match piece.data with
    | [] => (.error .EmptySegmentError, [])
    | c :: _ =>
      if c = '[' then
        match extractArray rtn piece with
        | .error err => (.error err, [piece])
        | .ok rtn1 => ((walkTrace rtn1 pieces).1, piece :: (walkTrace rtn1 pieces).2)
      else
        match extractObject rtn piece with
        | .error err => (.error err, [piece])
        | .ok rtn1 => ((walkTrace rtn1 pieces).1, piece :: (walkTrace rtn1 pieces).2)

/-- Go `Extract` with the ghost log of `walkTrace`. -/
def ExtractTrace (unmarshal : List Nat → Except String JSON) (jsonStr : List Nat)
    (path : String) : Except Error JSON × List String :=
  match unmarshal jsonStr with
  | .error err => (.error (.DecodeError err), [])
  | .ok rtn => walkTrace rtn (strings.Split path '.')

/-! ## Sub-values and decimal texts -/

/-- The value `v` is a direct child of `d`: an element of the sequence `d`, or a value bound
to a key in the mapping `d`. -/
def IsChild (d v : JSON) : Prop :=
  (∃ a, d = .array a ∧ v ∈ a) ∨ (∃ m k, d = .object m ∧ (k, v) ∈ m)

/-- The value `v` is reached from `d` by exactly `k` child steps. -/
def ChildSteps : Nat → JSON → JSON → Prop
  | 0, d, v => v = d
  | k + 1, d, v => ∃ d1, IsChild d d1 ∧ ChildSteps k d1 v

/-- The number a run of decimal digits denotes when read after the number `n`. -/
def decimalFrom (n : Nat) (ds : List Char) : Nat :=
  ds.foldl (fun acc c => acc * 10 + strconv.digitVal c) n

/-- The number a run of decimal digits denotes. -/
def decimalValue (ds : List Char) : Nat := decimalFrom 0 ds

/-- The integer the decimal text `sign ++ ds` denotes, for a sign that is empty, `+` or
`-`. -/
def signedValue (sign ds : List Char) : Int :=
  if sign = ['-'] then -(decimalValue ds : Int) else (decimalValue ds : Int)

/-! ## Example documents -/

/-- The number `0`. -/
def zero : Float64 := ⟨0⟩

/-- The number `1`. -/
def one : Float64 := ⟨0x3FF0000000000000⟩

/-- The number `7`. -/
def seven : Float64 := ⟨0x401C000000000000⟩

/-- The document `{"a": [{"val":0}, {"val":7}]}` of the comment on `Extract`. -/
def docA : JSON :=
  .object [("a", .array [.object [("val", .number zero)], .object [("val", .number seven)]])]

/-- The document `{"a": 1}`. -/
def docA1 : JSON := .object [("a", .number one)]

/-- A decoder that returns the document `d` on every input. -/
def constDecoder (d : JSON) : List Nat → Except String JSON := fun _ => .ok d

/-- A decoder that fails with the message `msg` on every input. -/
def failDecoder (msg : String) : List Nat → Except String JSON := fun _ => .error msg

/-! # Theorems -/

/-! ## Decimal text and `strconv.Atoi` -/

theorem digitChar_isDigit (m : Nat) (h : m < 10) :
    strconv.isDigit (Nat.digitChar m) = true ∧ strconv.digitVal (Nat.digitChar m) = m := by
  interval_cases m <;> exact ⟨rfl, rfl⟩

theorem isDigit_ne_sign (c : Char) (h : strconv.isDigit c = true) : c ≠ '-' ∧ c ≠ '+' := by
  constructor <;> (rintro rfl; revert h; decide)

/-- The digits `Nat.toDigitsCore` writes in front of its accumulator start with a digit. -/
theorem toDigitsCore_head (fuel : Nat) : ∀ (n : Nat) (rest : List Char), n < fuel →
    ∃ c cs, Nat.toDigitsCore 10 fuel n rest = c :: cs ∧ strconv.isDigit c = true := by
  induction fuel with
  | zero => intro n rest h; omega
  | succ fuel ih =>
    intro n rest h
    rw [Nat.toDigitsCore]
    by_cases h0 : n / 10 = 0
    · simp only [h0, if_true]
      exact ⟨_, _, rfl, (digitChar_isDigit (n % 10) (Nat.mod_lt _ (by omega))).1⟩
    · simp only [h0, if_false]
      exact ih (n / 10) _ (by omega)

theorem toDigits_head (n : Nat) :
    ∃ c cs, Nat.toDigits 10 n = c :: cs ∧ strconv.isDigit c = true :=
  toDigitsCore_head (n + 1) n [] (by omega)

/-- The fast loop of `Atoi` reads the digits of `n` back as `n`. -/
theorem atoiFastLoop_toDigitsCore (fuel : Nat) : ∀ (n : Nat) (rest : List Char), n < fuel →
    strconv.atoiFastLoop 0 (Nat.toDigitsCore 10 fuel n rest) = strconv.atoiFastLoop n rest := by
  induction fuel with
  | zero => intro n rest h; omega
  | succ fuel ih =>
    intro n rest h
    have hd := digitChar_isDigit (n % 10) (Nat.mod_lt _ (by omega))
    rw [Nat.toDigitsCore]
    by_cases h0 : n / 10 = 0
    · simp only [h0, if_true, strconv.atoiFastLoop, hd.1, hd.2]
      congr 1
      omega
    · simp only [h0, if_false]
      rw [ih (n / 10) _ (by omega)]
      simp only [strconv.atoiFastLoop, hd.1, hd.2, if_true]
      congr 1
      omega

/-- The loop of `ParseUint` reads the digits of a `uint64` back without a range error. -/
theorem parseUintLoop_toDigitsCore (fuel : Nat) : ∀ (n : Nat) (rest : List Char), n < fuel →
    n < 2 ^ 64 →
    strconv.parseUintLoop 0 (Nat.toDigitsCore 10 fuel n rest) = strconv.parseUintLoop n rest := by
  induction fuel with
  | zero => intro n rest h; omega
  | succ fuel ih =>
    intro n rest h hn
    have hd := digitChar_isDigit (n % 10) (Nat.mod_lt _ (by omega))
    have step : ∀ k, k = n / 10 →
        strconv.parseUintLoop k (Nat.digitChar (n % 10) :: rest) = strconv.parseUintLoop n rest := by
      intro k hk
      have h1 : ¬ (k ≥ strconv.maxUint64 / 10 + 1) := by
        simp only [strconv.maxUint64]; omega
      have h2 : (k * 10 % 2 ^ 64 + n % 10) % 2 ^ 64 = n := by omega
      have h3 : ¬ (n < k * 10 % 2 ^ 64 ∨ n > strconv.maxUint64) := by
        simp only [strconv.maxUint64]; omega
      simp only [strconv.parseUintLoop, hd.1, hd.2, if_true, h1, if_false, h2, h3]
    rw [Nat.toDigitsCore]
    by_cases h0 : n / 10 = 0
    · simp only [h0, if_true]
      exact step 0 h0.symm
    · simp only [h0, if_false]
      rw [ih (n / 10) _ (by omega) (by omega)]
      exact step _ rfl


theorem parseUint_toDigits (n : Nat) (hn : n < 2 ^ 64) :
    strconv.ParseUint (Nat.toDigits 10 n) = (n, none) := by
  obtain ⟨c, cs, hcs, _⟩ := toDigits_head n
  have hne : Nat.toDigits 10 n ≠ [] := by rw [hcs]; exact List.cons_ne_nil _ _
  rw [strconv.ParseUint, if_neg hne, Nat.toDigits,
    parseUintLoop_toDigitsCore (n + 1) n [] (by omega) hn]
  rfl

theorem atoiFast_toDigits (n : Nat) :
    strconv.atoiFastLoop 0 (Nat.toDigits 10 n) = some n := by
  rw [Nat.toDigits, atoiFastLoop_toDigitsCore (n + 1) n [] (by omega)]
  rfl

theorem toInt64_of_range (x : Int) (hlo : -2 ^ 63 ≤ x) (hhi : x < 2 ^ 63) :
    strconv.toInt64 x = x := by
  unfold strconv.toInt64
  rw [Int.emod_eq_of_lt (by omega) (by omega)]
  omega

/-- Reading back: `Atoi` returns every Go `int` from its decimal text. -/
theorem Atoi_Itoa (i : Int) (hlo : minInt ≤ i) (hhi : i ≤ maxInt) :
    strconv.Atoi (strconv.Itoa i) = .ok i := by
  simp only [minInt, maxInt] at hlo hhi
  obtain ⟨c, cs, hcs, hc⟩ := toDigits_head i.natAbs
  have hsign := isDigit_ne_sign c hc
  have hfast := atoiFast_toDigits i.natAbs
  have hslow := parseUint_toDigits i.natAbs (by omega)
  rw [hcs] at hfast hslow
  by_cases hneg : i < 0
  · have hdata : (strconv.Itoa i).data = '-' :: c :: cs := by
      simp only [strconv.Itoa, if_pos hneg, hcs]
    unfold strconv.Atoi
    simp only [hdata]
    split
    · simp only [true_or, if_true, List.length_cons, hfast]
      rw [if_neg (by omega)]
      simp only [Except.ok.injEq]
      omega
    · simp only [strconv.ParseInt, or_true, if_true, hslow, decide_True, Bool.not_true,
        Bool.false_and, Bool.true_and, decide_eq_true_eq]
      rw [if_neg (by simp), if_neg (by omega)]
      simp only [Except.ok.injEq]
      by_cases hmin : i.natAbs = 2 ^ 63
      · have hi : i = -2 ^ 63 := by omega
        rw [hmin, hi]
        rfl
      · rw [toInt64_of_range (i.natAbs : Int) (by omega) (by omega),
          toInt64_of_range (-(i.natAbs : Int)) (by omega) (by omega)]
        omega
  · have hdata : (strconv.Itoa i).data = c :: cs := by
      simp only [strconv.Itoa, if_neg hneg, hcs]
    unfold strconv.Atoi
    simp only [hdata]
    split
    · simp only [hsign.1, hsign.2, or_self, if_false, List.length_cons, hfast]
      rw [if_neg (by omega)]
      simp only [Except.ok.injEq]
      omega
    · simp only [strconv.ParseInt, hsign.1, hsign.2, or_self, if_false, hslow, decide_False,
        Bool.not_false, Bool.true_and, Bool.false_and, decide_eq_true_eq]
      rw [if_neg (by omega), if_neg (by simp)]
      simp only [Bool.false_eq_true, if_false, Except.ok.injEq]
      rw [toInt64_of_range (i.natAbs : Int) (by omega) (by omega)]
      omega


/-! ## One index step -/

theorem indexSegment_getLast (body : String) :
    (indexSegment body).data.getLast? = some ']' := by
  show ('[' :: (body.data ++ [']'])).getLast? = some ']'
  rw [← List.cons_append, List.getLast?_append]
  rfl

theorem slice_indexSegment (body : String) :
    slice (indexSegment body) 1 ((indexSegment body).data.length - 1) = some body := by
  have hlen : (indexSegment body).data.length = body.data.length + 2 := by
    show ('[' :: (body.data ++ [']'])).length = _
    simp
  have hdata : (indexSegment body).data = '[' :: (body.data ++ [']']) := rfl
  rw [slice, hlen, if_pos (by omega), hdata]
  have : body.data.length + 2 - 1 = body.data.length + 1 := by omega
  rw [this, List.take_succ_cons, List.take_left, List.drop_one, List.tail_cons]

/-- On a sequence and a bracketed segment, `extractArray` is the integer parse of the bracket
body followed by the range check and the element access. -/
theorem extractArray_indexSegment (a : List JSON) (body : String) :
    extractArray (.array a) (indexSegment body) =
      match strconv.Atoi body with
      | .error err => .error (.InvalidIndexError body err)
      | .ok idx =>
        if idx ≥ (a.length : Int) ∨ idx < -(a.length : Int) then
          .error (.IndexOutOfRangeError idx a.length)
        else if idx ≥ 0 then index a idx
        else index a ((a.length : Int) + idx) := by
  rw [extractArray, indexSegment_getLast]
  simp only [ne_eq, not_true_eq_false, if_false, slice_indexSegment]

theorem index_ok (a : List JSON) (k : Int) (h0 : 0 ≤ k) (h1 : k < (a.length : Int)) :
    ∃ v, index a k = .ok v ∧ a[k.toNat]? = some v := by
  have hk : k.toNat < a.length := by omega
  refine ⟨a[k.toNat], ?_, List.getElem?_eq_getElem hk⟩
  rw [index, if_neg (by omega), List.getElem?_eq_getElem hk]

/-- An in-range parsed index selects by position, from the end when negative. -/
theorem extractArray_parsed (a : List JSON) (body : String) (i : Int)
    (hparse : strconv.Atoi body = .ok i) (hlo : -(a.length : Int) ≤ i)
    (hhi : i < (a.length : Int)) :
    ∃ v, extractArray (.array a) (indexSegment body) = .ok v ∧
      (0 ≤ i → a[i.toNat]? = some v) ∧ (i < 0 → a[((a.length : Int) + i).toNat]? = some v) := by
  rw [extractArray_indexSegment, hparse]
  simp only
  rw [if_neg (by omega)]
  by_cases h0 : 0 ≤ i
  · obtain ⟨v, hv, hget⟩ := index_ok a i h0 hhi
    rw [if_pos h0]
    exact ⟨v, hv, fun _ => hget, fun h => by omega⟩
  · obtain ⟨v, hv, hget⟩ := index_ok a ((a.length : Int) + i) (by omega) (by omega)
    rw [if_neg h0]
    exact ⟨v, hv, fun h => by omega, fun _ => hget⟩

/-- An out-of-range parsed index is reported with the index and the length. -/
theorem extractArray_out_of_range (a : List JSON) (body : String) (i : Int)
    (hparse : strconv.Atoi body = .ok i)
    (h : i ≥ (a.length : Int) ∨ i < -(a.length : Int)) :
    extractArray (.array a) (indexSegment body) = .error (.IndexOutOfRangeError i a.length) := by
  rw [extractArray_indexSegment, hparse]
  simp only
  rw [if_pos h]


/-! ## Field steps -/

theorem mapIndex_eq_none (m : List (String × JSON)) (s : String)
    (h : s ∉ m.map Prod.fst) : mapIndex m s = none := by
  induction m with
  | nil => rfl
  | cons kv rest ih =>
    obtain ⟨k, v⟩ := kv
    simp only [List.map_cons, List.mem_cons, not_or] at h
    rw [mapIndex, if_neg (fun hk => h.1 hk.symm)]
    exact ih h.2

theorem mapIndex_mem (m : List (String × JSON)) (s : String) (v : JSON)
    (h : mapIndex m s = some v) : (s, v) ∈ m := by
  induction m with
  | nil => simp [mapIndex] at h
  | cons kv rest ih =>
    obtain ⟨k, w⟩ := kv
    rw [mapIndex] at h
    by_cases hk : k = s
    · rw [if_pos hk] at h
      cases h
      rw [hk]
      exact List.mem_cons_self _ _
    · rw [if_neg hk] at h
      exact List.mem_cons_of_mem _ (ih h)

theorem mapIndex_of_mem (m : List (String × JSON)) (s : String) (v : JSON)
    (hnodup : (m.map Prod.fst).Nodup) (h : (s, v) ∈ m) : mapIndex m s = some v := by
  induction m with
  | nil => simp at h
  | cons kv rest ih =>
    obtain ⟨k, w⟩ := kv
    simp only [List.map_cons, List.nodup_cons] at hnodup
    rw [mapIndex]
    rcases List.mem_cons.mp h with heq | hmem
    · cases heq
      rw [if_pos rfl]
    · have hk : k ≠ s := by
        rintro rfl
        exact hnodup.1 (List.mem_map_of_mem Prod.fst hmem)
      rw [if_neg hk]
      exact ih hnodup.2 hmem

/-- C2: the field segment rule.  On `nil`, a boolean, a number, a string or a sequence
`extractObject` fails with `NotAnObjectError` carrying the segment; on a mapping without the key
it fails with `FieldNotFoundError` carrying the segment; on a mapping (keys unique) binding the
key to `v` it returns `v` itself; keys are compared verbatim, so `"A"` does not find `"a"`. -/
theorem extractObject_field_rule (s : String) :
    extractObject .null s = .error (.NotAnObjectError s) ∧
    (∀ b, extractObject (.bool b) s = .error (.NotAnObjectError s)) ∧
    (∀ f, extractObject (.number f) s = .error (.NotAnObjectError s)) ∧
    (∀ t, extractObject (.string t) s = .error (.NotAnObjectError s)) ∧
    (∀ a, extractObject (.array a) s = .error (.NotAnObjectError s)) ∧
    (∀ m, s ∉ m.map Prod.fst → extractObject (.object m) s = .error (.FieldNotFoundError s)) ∧
    (∀ m v, (m.map Prod.fst).Nodup → (s, v) ∈ m → extractObject (.object m) s = .ok v) ∧
    (∀ m v, extractObject (.object m) s = .ok v → (s, v) ∈ m) ∧
    extractObject docA1 "A" = .error (.FieldNotFoundError "A") ∧
    (∀ unmarshal jsonStr, unmarshal jsonStr = .ok docA1 →
      Extract unmarshal jsonStr "a.b" = .error (.NotAnObjectError "b")) := by
  refine ⟨rfl, fun _ => rfl, fun _ => rfl, fun _ => rfl, fun _ => rfl, ?_, ?_, ?_, rfl, ?_⟩
  · intro m h
    simp only [extractObject, mapIndex_eq_none m s h]
  · intro m v hnodup h
    simp only [extractObject, mapIndex_of_mem m s v hnodup h]
  · intro m v h
    apply mapIndex_mem
    simp only [extractObject] at h
    split at h
    · cases h
    · cases h
      assumption
  · intro unmarshal jsonStr h
    simp only [Extract, h]
    rfl

/-- C2 at the mapping `{"a": 1}`: the segment `a` returns the number and `b` is not found. -/
theorem extractObject_field_rule_witness :
    extractObject docA1 "a" = .ok (.number one) ∧
    extractObject docA1 "b" = .error (.FieldNotFoundError "b") :=
  ⟨(extractObject_field_rule "a").2.2.2.2.2.2.1 [("a", .number one)] (.number one)
      (by simp) (by simp),
    (extractObject_field_rule "b").2.2.2.2.2.1 [("a", .number one)] (by decide)⟩

/-! ## Index steps -/

/-- C3: index selection.  When the bracket body parses to `i` with `-n <= i < n`,
`extractArray` returns the element at position `i` if `i >= 0` and at position `n + i` if
`i < 0`; `[-1]` returns the last element of every non-empty sequence, and on the example
documented with `Extract` the path `a.[-1].val` returns `7`. -/
theorem extractArray_index_selection (a : List JSON) (body : String) (i : Int)
    (hparse : strconv.Atoi body = .ok i) (hlo : -(a.length : Int) ≤ i)
    (hhi : i < (a.length : Int)) :
    (∃ v, extractArray (.array a) (indexSegment body) = .ok v ∧
      (0 ≤ i → a[i.toNat]? = some v) ∧
      (i < 0 → a[((a.length : Int) + i).toNat]? = some v)) ∧
    (∀ b : List JSON, b ≠ [] →
      ∃ v, extractArray (.array b) "[-1]" = .ok v ∧ b.getLast? = some v) ∧
    (∀ unmarshal jsonStr, unmarshal jsonStr = .ok docA →
      Extract unmarshal jsonStr "a.[-1].val" = .ok (.number seven)) := by
  refine ⟨extractArray_parsed a body i hparse hlo hhi, ?_, ?_⟩
  · intro b hb
    have hlen : 0 < b.length := List.length_pos.mpr hb
    obtain ⟨v, hv, _, hneg⟩ :=
      extractArray_parsed b "-1" (-1) rfl (by omega) (by omega)
    refine ⟨v, hv, ?_⟩
    rw [List.getLast?_eq_getElem?, ← hneg (by omega)]
    congr 1
    omega
  · intro unmarshal jsonStr h
    simp only [Extract, h]
    rfl

/-- C3 at the sequence `[null, true]` and the segment `[1]`, whose body parses to `1`. -/
theorem extractArray_index_selection_witness :
    strconv.Atoi "1" = .ok 1 ∧
    extractArray (.array [.null, .bool true]) (indexSegment "1") = .ok (.bool true) := by
  obtain ⟨v, hv, hpos, _⟩ :=
    (extractArray_index_selection [.null, .bool true] "1" 1 rfl (by decide) (by decide)).1
  have h : some (JSON.bool true) = some v := hpos (by decide)
  cases h
  exact ⟨rfl, hv⟩

theorem index_ne_out_of_range (a : List JSON) (k i : Int) (n : Nat) :
    index a k ≠ .error (.IndexOutOfRangeError i n) := by
  unfold index
  split
  · intro h; cases h
  · split <;> (intro h; cases h)

/-- C4: index range errors.  When the bracket body parses to `i`, `extractArray` on a sequence
of length `n` fails with `IndexOutOfRangeError` carrying `i` and `n` exactly when `i >= n` or
`i < -n`; the segments `[n]` and `[-n-1]` both fail so (a Go sequence has at most `2^63 - 1`
elements), and every segment with an integer body fails so on the empty sequence. -/
theorem extractArray_index_range (a : List JSON) (body : String) (i : Int)
    (hparse : strconv.Atoi body = .ok i) :
    (extractArray (.array a) (indexSegment body) = .error (.IndexOutOfRangeError i a.length) ↔
      (i ≥ (a.length : Int) ∨ i < -(a.length : Int))) ∧
    ((a.length : Int) ≤ maxInt →
      extractArray (.array a) (indexSegment (strconv.Itoa a.length)) =
        .error (.IndexOutOfRangeError a.length a.length) ∧
      extractArray (.array a) (indexSegment (strconv.Itoa (-(a.length : Int) - 1))) =
        .error (.IndexOutOfRangeError (-(a.length : Int) - 1) a.length)) ∧
    extractArray (.array []) (indexSegment body) = .error (.IndexOutOfRangeError i 0) := by
  refine ⟨⟨?_, extractArray_out_of_range a body i hparse⟩, ?_, ?_⟩
  · intro h
    by_contra hin
    rw [extractArray_indexSegment, hparse] at h
    simp only at h
    rw [if_neg hin] at h
    split at h
    · exact index_ne_out_of_range _ _ _ _ h
    · exact index_ne_out_of_range _ _ _ _ h
  · intro hlen
    simp only [maxInt, minInt] at hlen
    constructor
    · exact extractArray_out_of_range a _ _
        (Atoi_Itoa _ (by simp only [minInt]; omega) (by simp only [maxInt]; omega))
        (Or.inl (le_refl _))
    · exact extractArray_out_of_range a _ _
        (Atoi_Itoa _ (by simp only [minInt]; omega) (by simp only [maxInt]; omega))
        (Or.inr (by omega))
  · exact extractArray_out_of_range [] body i hparse (by
      simp only [List.length_nil, Nat.cast_zero]; omega)

/-- C4 at the sequence `[null, true]` and the segment `[5]`, whose body parses to `5`. -/
theorem extractArray_index_range_witness :
    strconv.Atoi "5" = .ok 5 ∧
    extractArray (.array [.null, .bool true]) (indexSegment "5") =
      .error (.IndexOutOfRangeError 5 2) :=
  ⟨rfl, (extractArray_index_range [.null, .bool true] "5" 5 rfl).1.mpr (Or.inl (by decide))⟩

/-- An in-range Go `int`, written in decimal, selects by position. -/
theorem extractArray_Itoa (a : List JSON) (i : Int) (hlen : (a.length : Int) ≤ maxInt)
    (hlo : -(a.length : Int) ≤ i) (hhi : i < (a.length : Int)) :
    ∃ v, extractArray (.array a) (indexSegment (strconv.Itoa i)) = .ok v ∧
      (0 ≤ i → a[i.toNat]? = some v) ∧ (i < 0 → a[((a.length : Int) + i).toNat]? = some v) := by
  simp only [maxInt] at hlen
  exact extractArray_parsed a _ i
    (Atoi_Itoa i (by simp only [minInt]; omega) (by simp only [maxInt]; omega)) hlo hhi

/-- C5: the negative-index property.  For a sequence of length `n` (at most `2^63 - 1`, as
every Go sequence) and `0 <= i < n`, the segments `[i]` and `[i-n]` both succeed and return
the same element, the one at position `i`. -/
theorem extractArray_negative_index (a : List JSON) (i : Int)
    (hlen : (a.length : Int) ≤ maxInt) (h0 : 0 ≤ i) (hn : i < (a.length : Int)) :
    ∃ v, a[i.toNat]? = some v ∧
      extractArray (.array a) (indexSegment (strconv.Itoa i)) = .ok v ∧
      extractArray (.array a) (indexSegment (strconv.Itoa (i - (a.length : Int)))) = .ok v := by
  obtain ⟨v, hv, hpos, _⟩ := extractArray_Itoa a i hlen (by omega) hn
  obtain ⟨w, hw, _, hneg⟩ := extractArray_Itoa a (i - (a.length : Int)) hlen (by omega) (by omega)
  have hvw : some w = some v := by
    rw [← hneg (by omega), ← hpos h0]
    congr 1
    omega
  cases hvw
  exact ⟨_, hpos h0, hv, hw⟩

/-- C5 at the sequence `[null, true]` and `i = 0`: the segments `[0]` and `[-2]`. -/
theorem extractArray_negative_index_witness :
    extractArray (.array [.null, .bool true]) "[0]" = .ok .null ∧
    extractArray (.array [.null, .bool true]) "[-2]" = .ok .null := by
  obtain ⟨v, hget, hv, hw⟩ :=
    extractArray_negative_index [.null, .bool true] 0 (by decide) (by decide) (by decide)
  have h : some JSON.null = some v := hget
  cases h
  exact ⟨hv, hw⟩

/-- C6, refuted as stated: on the sequence `[null, true]` of length `2` the segment `[1]`
returns the last element `true`, while `[-2]` returns the first element `null`. -/
theorem extractArray_boundary_counterexample :
    extractArray (.array [.null, .bool true]) (indexSegment (strconv.Itoa (2 - 1))) =
      .ok (.bool true) ∧
    extractArray (.array [.null, .bool true]) (indexSegment (strconv.Itoa (-2))) = .ok .null ∧
    [JSON.null, JSON.bool true].getLast? = some (.bool true) ∧
    JSON.null ≠ JSON.bool true :=
  ⟨rfl, rfl, rfl, fun h => JSON.noConfusion h⟩

/-- C6, amended: for a non-empty sequence of length `n` (at most `2^63 - 1`), the segments
`[n-1]` and `[-n]` both succeed; `[n-1]` returns the last element and `[-n]` returns the first
element. -/
theorem extractArray_boundary (a : List JSON) (hne : a ≠ [])
    (hlen : (a.length : Int) ≤ maxInt) :
    (∃ v, extractArray (.array a) (indexSegment (strconv.Itoa ((a.length : Int) - 1))) = .ok v ∧
      a.getLast? = some v) ∧
    (∃ w, extractArray (.array a) (indexSegment (strconv.Itoa (-(a.length : Int)))) = .ok w ∧
      a.head? = some w) := by
  have hpos : 0 < a.length := List.length_pos.mpr hne
  obtain ⟨v, hv, hget, _⟩ := extractArray_Itoa a ((a.length : Int) - 1) hlen (by omega) (by omega)
  obtain ⟨w, hw, _, hneg⟩ := extractArray_Itoa a (-(a.length : Int)) hlen (by omega) (by omega)
  refine ⟨⟨v, hv, ?_⟩, ⟨w, hw, ?_⟩⟩
  · rw [List.getLast?_eq_getElem?, ← hget (by omega)]
    congr 1
    omega
  · rw [List.head?_eq_getElem?, ← hneg (by omega)]
    congr 1
    omega

/-- C6 amended, at the sequence `[null, true]`: `[1]` returns `true` and `[-2]` returns `null`. -/
theorem extractArray_boundary_witness :
    (∃ v, extractArray (.array [.null, .bool true]) "[1]" = .ok v ∧
      [JSON.null, JSON.bool true].getLast? = some v) ∧
    (∃ w, extractArray (.array [.null, .bool true]) "[-2]" = .ok w ∧
      [JSON.null, JSON.bool true].head? = some w) :=
  extractArray_boundary [.null, .bool true] (by simp) (by decide)


/-! ## Splitting and joining -/

theorem splitChars_ne_nil (sep : Char) (l : List Char) : strings.splitChars sep l ≠ [] := by
  cases l with
  | nil => simp [strings.splitChars]
  | cons c cs =>
    rw [strings.splitChars]
    split
    · exact List.cons_ne_nil _ _
    · split <;> exact List.cons_ne_nil _ _

theorem splitChars_no_sep (sep : Char) (l : List Char) (h : sep ∉ l) :
    strings.splitChars sep l = [l] := by
  induction l with
  | nil => rfl
  | cons c cs ih =>
    simp only [List.mem_cons, not_or] at h
    rw [strings.splitChars, if_neg (fun hc => h.1 hc.symm), ih h.2]

theorem splitChars_append_sep (sep : Char) (p q : List Char) :
    strings.splitChars sep (p ++ sep :: q) =
      strings.splitChars sep p ++ strings.splitChars sep q := by
  induction p with
  | nil => simp [strings.splitChars]
  | cons c cs ih =>
    rw [List.cons_append, strings.splitChars, strings.splitChars, ih]
    by_cases hc : c = sep
    · simp only [hc, if_true, List.cons_append]
    · simp only [hc, if_false]
      cases hs : strings.splitChars sep cs with
      | nil => exact absurd hs (splitChars_ne_nil sep cs)
      | cons x xs => rfl

theorem splitChars_joinChars (segs : List String) (hne : segs ≠ [])
    (h : ∀ s ∈ segs, '.' ∉ s.data) :
    strings.splitChars '.' (joinChars segs) = segs.map String.data := by
  induction segs with
  | nil => exact absurd rfl hne
  | cons s rest ih =>
    cases rest with
    | nil =>
      simp only [joinChars, List.map_cons, List.map_nil]
      exact splitChars_no_sep '.' s.data (h s (List.mem_cons_self _ _))
    | cons t rest =>
      rw [joinChars, splitChars_append_sep,
        splitChars_no_sep '.' s.data (h s (List.mem_cons_self _ _)),
        ih (List.cons_ne_nil _ _) (fun u hu => h u (List.mem_cons_of_mem _ hu))]
      rfl

/-- Splitting the joined path gives the segments back. -/
theorem Split_joinPath (segs : List String) (hne : segs ≠ [])
    (h : ∀ s ∈ segs, '.' ∉ s.data) : strings.Split (joinPath segs) '.' = segs := by
  rw [strings.Split]
  show (strings.splitChars '.' (joinChars segs)).map String.mk = segs
  rw [splitChars_joinChars segs hne h, List.map_map]
  have : (String.mk ∘ String.data) = id := by
    funext x
    rfl
  rw [this, List.map_id]

theorem Split_append_dot (p q : String) :
    strings.Split (p ++ "." ++ q) '.' = strings.Split p '.' ++ strings.Split q '.' := by
  have hdata : (p ++ "." ++ q).data = p.data ++ '.' :: q.data := by
    simp only [String.data_append, List.append_assoc]
    rfl
  rw [strings.Split, hdata, splitChars_append_sep, List.map_append]
  rfl

/-! ## The walk -/

theorem walk_append (ps qs : List String) : ∀ d : JSON,
    walk d (ps ++ qs) =
      match walk d ps with
      | .ok v => walk v qs
      | .error e => .error e := by
  induction ps with
  | nil => intro d; rfl
  | cons piece ps ih =>
    intro d
    rw [List.cons_append, walk, walk]
    split
    · rfl
    · split
      · split
        · rfl
        · exact ih _
      · split
        · rfl
        · exact ih _

theorem walkTrace_fst (ps : List String) : ∀ d : JSON, (walkTrace d ps).1 = walk d ps := by
  induction ps with
  | nil => intro d; rfl
  | cons piece ps ih =>
    intro d
    rw [walkTrace, walk]
    split
    · rfl
    · split
      · split
        · rfl
        · exact ih _
      · split
        · rfl
        · exact ih _

theorem ExtractTrace_fst (unmarshal : List Nat → Except String JSON) (jsonStr : List Nat)
    (path : String) :
    (ExtractTrace unmarshal jsonStr path).1 = Extract unmarshal jsonStr path := by
  rw [ExtractTrace, Extract]
  split
  · rfl
  · exact walkTrace_fst _ _


/-! ## Paths written from steps -/

theorem toDigitsCore_mem (fuel : Nat) : ∀ (n : Nat) (rest : List Char) (c : Char),
    c ∈ Nat.toDigitsCore 10 fuel n rest → strconv.isDigit c = true ∨ c ∈ rest := by
  induction fuel with
  | zero => intro n rest c h; exact Or.inr h
  | succ fuel ih =>
    intro n rest c h
    have hd := (digitChar_isDigit (n % 10) (Nat.mod_lt _ (by omega))).1
    rw [Nat.toDigitsCore] at h
    by_cases h0 : n / 10 = 0
    · simp only [h0, if_true, List.mem_cons] at h
      rcases h with rfl | h
      · exact Or.inl hd
      · exact Or.inr h
    · simp only [h0, if_false] at h
      rcases ih _ _ c h with h | h
      · exact Or.inl h
      · rcases List.mem_cons.mp h with rfl | h
        · exact Or.inl hd
        · exact Or.inr h

theorem Itoa_no_dot (i : Int) : '.' ∉ (strconv.Itoa i).data := by
  have hdig : '.' ∉ Nat.toDigits 10 i.natAbs := by
    intro h
    rcases toDigitsCore_mem _ _ _ _ h with h | h
    · revert h; decide
    · simp at h
  unfold strconv.Itoa
  split
  · intro h
    rcases List.mem_cons.mp h with h | h
    · revert h; decide
    · exact hdig h
  · exact hdig

theorem segment_no_dot (s : Step) (h : s.wellFormed) : '.' ∉ s.segment.data := by
  cases s with
  | field key => exact h.2.1
  | index i =>
    show '.' ∉ '[' :: ((strconv.Itoa i).data ++ [']'])
    intro hmem
    rcases List.mem_cons.mp hmem with h1 | h1
    · revert h1; decide
    · rcases List.mem_append.mp h1 with h2 | h2
      · exact Itoa_no_dot i h2
      · simp at h2

/-- One well-formed step that resolves is one successful iteration of the loop. -/
theorem walk_step (d d1 : JSON) (s : Step) (ps : List String) (hwf : s.wellFormed)
    (hchild : specChild d s = some d1) : walk d (s.segment :: ps) = walk d1 ps := by
  cases s with
  | field key =>
    obtain ⟨hne, _, hhead⟩ := hwf
    cases d with
    | object m =>
      have hget : mapIndex m key = some d1 := hchild
      rw [walk]
      show (match key.data with
        | [] => Except.error Error.EmptySegmentError
        | c :: _ =>
          if c = '[' then
            match extractArray (.object m) key with
            | .error err => .error err
            | .ok rtn1 => walk rtn1 ps
          else
            match extractObject (.object m) key with
            | .error err => .error err
            | .ok rtn1 => walk rtn1 ps) = walk d1 ps
      cases hk : key.data with
      | nil => exact absurd hk hne
      | cons c cs =>
        have hc : c ≠ '[' := by
          rintro rfl
          exact hhead (by rw [hk]; rfl)
        simp only [if_neg hc, extractObject, hget]
    | null => cases hchild
    | bool b => cases hchild
    | number f => cases hchild
    | string t => cases hchild
    | array a => cases hchild
  | index i =>
    cases d with
    | array a =>
      have hc : (if -(a.length : Int) ≤ i ∧ i < (a.length : Int) then
          if 0 ≤ i then a[i.toNat]? else a[((a.length : Int) + i).toNat]?
        else none) = some d1 := hchild
      by_cases hr : -(a.length : Int) ≤ i ∧ i < (a.length : Int)
      · rw [if_pos hr] at hc
        obtain ⟨v, hv, hpos, hneg⟩ :=
          extractArray_parsed a (strconv.Itoa i) i (Atoi_Itoa i hwf.1 hwf.2) hr.1 hr.2
        have hvd : v = d1 := by
          by_cases h0 : 0 ≤ i
          · rw [if_pos h0, hpos h0] at hc
            exact Option.some.inj hc
          · rw [if_neg h0, hneg (by omega)] at hc
            exact Option.some.inj hc
        rw [walk]
        show (if '[' = '[' then
            match extractArray (.array a) (indexSegment (strconv.Itoa i)) with
            | .error err => .error err
            | .ok rtn1 => walk rtn1 ps
          else
            match extractObject (.array a) (indexSegment (strconv.Itoa i)) with
            | .error err => .error err
            | .ok rtn1 => walk rtn1 ps) = walk d1 ps
        rw [if_pos rfl, hv, hvd]
      · rw [if_neg hr] at hc
        cases hc
    | null => cases hchild
    | bool b => cases hchild
    | number f => cases hchild
    | string t => cases hchild
    | object m => cases hchild

theorem walk_resolve (steps : List Step) : ∀ (d v : JSON),
    (∀ s ∈ steps, s.wellFormed) → specResolve d steps = some v →
    walk d (steps.map Step.segment) = .ok v := by
  induction steps with
  | nil =>
    intro d v _ h
    cases h
    rfl
  | cons s rest ih =>
    intro d v hwf h
    rw [specResolve] at h
    cases hc : specChild d s with
    | none => rw [hc] at h; cases h
    | some d1 =>
      rw [hc] at h
      rw [List.map_cons, walk_step d d1 s _ (hwf s (List.mem_cons_self _ _)) hc]
      exact ih d1 v (fun u hu => hwf u (List.mem_cons_of_mem _ hu)) h

/-- C1, refuted as stated: the empty list of steps resolves the document `null` to itself,
and the path it writes is the empty path, on which `Extract` fails. -/
theorem Extract_resolve_counterexample :
    specResolve .null [] = some .null ∧
    joinPath (([] : List Step).map Step.segment) = "" ∧
    Extract (constDecoder .null) [] (joinPath (([] : List Step).map Step.segment)) =
      .error .EmptySegmentError :=
  ⟨rfl, rfl, rfl⟩

/-- C1, amended: for every decoded document `d` and every non-empty list of well-formed steps
(keys that are non-empty, have no `.` and do not begin with `[`; indices that are Go `int`s)
resolving to `v` under direct indexing, `Extract` on the steps joined by `.` returns `v`. -/
theorem Extract_resolve (unmarshal : List Nat → Except String JSON) (jsonStr : List Nat)
    (d v : JSON) (steps : List Step) (hdec : unmarshal jsonStr = .ok d) (hne : steps ≠ [])
    (hwf : ∀ s ∈ steps, s.wellFormed) (hres : specResolve d steps = some v) :
    Extract unmarshal jsonStr (joinPath (steps.map Step.segment)) = .ok v := by
  have hsplit : strings.Split (joinPath (steps.map Step.segment)) '.' =
      steps.map Step.segment := by
    apply Split_joinPath
    · intro h
      exact hne (List.map_eq_nil_iff.mp h)
    · intro seg hseg
      obtain ⟨s, hs, rfl⟩ := List.mem_map.mp hseg
      exact segment_no_dot s (hwf s hs)
  simp only [Extract, hdec, hsplit]
  exact walk_resolve steps d v hwf hres

/-- C1 amended, at the documented example: the steps `a`, `-1`, `val` write the path
`a.[-1].val`, which returns `7`. -/
theorem Extract_resolve_witness :
    joinPath ([Step.field "a", Step.index (-1), Step.field "val"].map Step.segment) =
      "a.[-1].val" ∧
    Extract (constDecoder docA) []
        (joinPath ([Step.field "a", Step.index (-1), Step.field "val"].map Step.segment)) =
      .ok (.number seven) :=
  ⟨rfl, Extract_resolve (constDecoder docA) [] docA (.number seven)
    [Step.field "a", Step.index (-1), Step.field "val"] rfl (by simp)
    (by
      intro s hs
      simp only [List.mem_cons, List.mem_singleton, List.not_mem_nil, or_false] at hs
      rcases hs with rfl | rfl | rfl
      · exact ⟨by decide, by decide, by decide⟩
      · exact ⟨by decide, by decide⟩
      · exact ⟨by decide, by decide, by decide⟩)
    (by simp [specResolve, specChild, docA, mapIndex])⟩


/-! ## Empty segments -/

theorem first_occurrence (x : String) (l : List String) (h : x ∈ l) :
    ∃ pre post, l = pre ++ x :: post ∧ x ∉ pre := by
  induction l with
  | nil => cases h
  | cons y ys ih =>
    by_cases hy : y = x
    · exact ⟨[], ys, by rw [hy]; rfl, List.not_mem_nil _⟩
    · rcases List.mem_cons.mp h with heq | hmem
      · exact absurd heq.symm hy
      · obtain ⟨pre, post, hl, hpre⟩ := ih hmem
        refine ⟨y :: pre, post, by rw [hl]; rfl, ?_⟩
        intro hmem1
        rcases List.mem_cons.mp hmem1 with h1 | h1
        · exact hy h1.symm
        · exact hpre h1

theorem walk_empty_segment (d : JSON) (post : List String) :
    walk d ("" :: post) = .error .EmptySegmentError := rfl

/-- Lookups stop at the first empty segment: the log is a prefix of the segments before it. -/
theorem walkTrace_prefix (pre post : List String) : ∀ d : JSON,
    (walkTrace d (pre ++ "" :: post)).2 <+: pre := by
  induction pre with
  | nil => intro d; exact List.prefix_refl _
  | cons piece pre ih =>
    intro d
    rw [List.cons_append, walkTrace]
    split
    · exact List.nil_prefix
    · split
      · split
        · exact List.prefix_cons_inj piece |>.mpr List.nil_prefix
        · exact List.prefix_cons_inj piece |>.mpr (ih _)
      · split
        · exact List.prefix_cons_inj piece |>.mpr List.nil_prefix
        · exact List.prefix_cons_inj piece |>.mpr (ih _)

/-- C7, refuted as stated: on `{"a": 1}` the path `b.` has an empty segment and fails with
`FieldNotFoundError`, not `EmptySegmentError`; and the path `a.` fails with
`EmptySegmentError` only after the lookup of `a` has been made. -/
theorem Extract_empty_segment_counterexample :
    strings.Split "b." '.' = ["b", ""] ∧
    Extract (constDecoder docA1) [] "b." = .error (.FieldNotFoundError "b") ∧
    Extract (constDecoder docA1) [] "b." ≠ .error .EmptySegmentError ∧
    ExtractTrace (constDecoder docA1) [] "a." = (.error .EmptySegmentError, ["a"]) := by
  refine ⟨rfl, rfl, ?_, rfl⟩
  intro h
  have h1 : (Except.error (Error.FieldNotFoundError "b") : Except Error JSON) =
      .error .EmptySegmentError := h
  cases h1

/-- C7, amended: when the path of a decoded document has an empty segment, `Extract` fails;
with `pre` the segments before the first empty one, it fails with `EmptySegmentError` if the
walk of `pre` succeeds and with the error of that walk otherwise, and lookups are made only
for segments of `pre` (none at all when the first segment is the empty one). -/
theorem Extract_empty_segment (unmarshal : List Nat → Except String JSON) (jsonStr : List Nat)
    (d : JSON) (path : String) (hdec : unmarshal jsonStr = .ok d)
    (hempty : "" ∈ strings.Split path '.') :
    ∃ pre post, strings.Split path '.' = pre ++ "" :: post ∧ "" ∉ pre ∧
      Extract unmarshal jsonStr path =
        (match walk d pre with
         | .ok _ => .error .EmptySegmentError
         | .error e => .error e) ∧
      (ExtractTrace unmarshal jsonStr path).2 <+: pre ∧
      (pre = [] → Extract unmarshal jsonStr path = .error .EmptySegmentError ∧
        (ExtractTrace unmarshal jsonStr path).2 = []) := by
  obtain ⟨pre, post, hsplit, hpre⟩ := first_occurrence "" _ hempty
  have hE : Extract unmarshal jsonStr path =
      (match walk d pre with
       | .ok _ => .error .EmptySegmentError
       | .error e => .error e) := by
    simp only [Extract, hdec, hsplit, walk_append]
    split <;> rfl
  have hT : (ExtractTrace unmarshal jsonStr path).2 <+: pre := by
    simp only [ExtractTrace, hdec, hsplit]
    exact walkTrace_prefix pre post d
  refine ⟨pre, post, hsplit, hpre, hE, hT, ?_⟩
  intro hnil
  subst hnil
  exact ⟨hE, List.prefix_nil.mp hT⟩

/-- C7 amended, at `{"a": 1}` and the path `.a`: the first segment is empty, so the failure is
`EmptySegmentError` and no lookup is made. -/
theorem Extract_empty_segment_witness :
    Extract (constDecoder docA1) [] ".a" = .error .EmptySegmentError ∧
    (ExtractTrace (constDecoder docA1) [] ".a").2 = [] := by
  obtain ⟨pre, post, hsplit, _, _, _, hnil⟩ :=
    Extract_empty_segment (constDecoder docA1) [] docA1 ".a" rfl (by decide)
  have h1 : ["", "a"] = pre ++ "" :: post := hsplit
  cases pre with
  | nil => exact hnil rfl
  | cons x xs =>
    exfalso
    rename_i hnot _ _
    simp only [List.cons_append, List.cons.injEq] at h1
    exact hnot (by rw [← h1.1]; exact List.mem_cons_self _ _)


/-! ## The fold, the decoder and the typed wrapper -/

/-- C8: `Extract` is a left-to-right fold that stops at the first error.  For a decoded
document and all paths `p`, `q`: `Extract` on `p.q` is `Extract` on `p` followed, on success
with `v`, by the walk of `q` from `v`; and an error of `Extract` on `p` is the error of
`Extract` on `p.q`, whatever `q` is. -/
theorem Extract_fold (unmarshal : List Nat → Except String JSON) (jsonStr : List Nat)
    (d : JSON) (p q : String) (hdec : unmarshal jsonStr = .ok d) :
    (Extract unmarshal jsonStr (p ++ "." ++ q) =
      match Extract unmarshal jsonStr p with
      | .ok v => walk v (strings.Split q '.')
      | .error e => .error e) ∧
    (∀ v, Extract unmarshal jsonStr p = .ok v →
      Extract unmarshal jsonStr (p ++ "." ++ q) = walk v (strings.Split q '.')) ∧
    (∀ e, Extract unmarshal jsonStr p = .error e →
      Extract unmarshal jsonStr (p ++ "." ++ q) = .error e) := by
  have hmain : Extract unmarshal jsonStr (p ++ "." ++ q) =
      match Extract unmarshal jsonStr p with
      | .ok v => walk v (strings.Split q '.')
      | .error e => .error e := by
    simp only [Extract, hdec, Split_append_dot, walk_append]
  refine ⟨hmain, ?_, ?_⟩
  · intro v hv
    rw [hmain, hv]
  · intro e he
    rw [hmain, he]

/-- C8 at the documented example: `a.[-1]` followed by `val`. -/
theorem Extract_fold_witness :
    Extract (constDecoder docA) [] ("a.[-1]" ++ "." ++ "val") =
      walk (.object [("val", .number seven)]) (strings.Split "val" '.') :=
  (Extract_fold (constDecoder docA) [] docA "a.[-1]" "val" rfl).2.1 _ rfl

/-- C9: a decoder failure takes precedence.  When the decoder fails, `Extract` fails with the
decoder's error for every path, and no lookup is made. -/
theorem Extract_decode_error (unmarshal : List Nat → Except String JSON) (jsonStr : List Nat)
    (msg : String) (path : String) (hdec : unmarshal jsonStr = .error msg) :
    Extract unmarshal jsonStr path = .error (.DecodeError msg) ∧
    (ExtractTrace unmarshal jsonStr path).2 = [] := by
  simp only [Extract, ExtractTrace, hdec, and_self]

/-- C9 at the empty path, which has an empty segment. -/
theorem Extract_decode_error_witness :
    Extract (failDecoder "unexpected end of JSON input") [] "" =
      .error (.DecodeError "unexpected end of JSON input") ∧
    (ExtractTrace (failDecoder "unexpected end of JSON input") [] "").2 = [] :=
  Extract_decode_error (failDecoder "unexpected end of JSON input") [] _ "" rfl

/-- C10: `ExtractString` is a post-condition on `Extract`.  An error of `Extract` is returned
as is; a string is returned as is; `nil`, a boolean, a number, a sequence or a mapping `x`
gives `TypeMismatchError` with `x`; and a returned string is always the string `Extract`
returned, never a coerced value. -/
theorem ExtractString_post (unmarshal : List Nat → Except String JSON) (jsonStr : List Nat)
    (path : String) :
    (∀ e, Extract unmarshal jsonStr path = .error e →
      ExtractString unmarshal jsonStr path = .error e) ∧
    (∀ s, Extract unmarshal jsonStr path = .ok (.string s) →
      ExtractString unmarshal jsonStr path = .ok s) ∧
    (Extract unmarshal jsonStr path = .ok .null →
      ExtractString unmarshal jsonStr path = .error (.TypeMismatchError "string" .null)) ∧
    (∀ b, Extract unmarshal jsonStr path = .ok (.bool b) →
      ExtractString unmarshal jsonStr path = .error (.TypeMismatchError "string" (.bool b))) ∧
    (∀ f, Extract unmarshal jsonStr path = .ok (.number f) →
      ExtractString unmarshal jsonStr path =
        .error (.TypeMismatchError "string" (.number f))) ∧
    (∀ a, Extract unmarshal jsonStr path = .ok (.array a) →
      ExtractString unmarshal jsonStr path = .error (.TypeMismatchError "string" (.array a))) ∧
    (∀ m, Extract unmarshal jsonStr path = .ok (.object m) →
      ExtractString unmarshal jsonStr path =
        .error (.TypeMismatchError "string" (.object m))) ∧
    (∀ s, ExtractString unmarshal jsonStr path = .ok s →
      Extract unmarshal jsonStr path = .ok (.string s)) := by
  refine ⟨?_, ?_, ?_, ?_, ?_, ?_, ?_, ?_⟩
  · intro e h; simp only [ExtractString, h]
  · intro s h; simp only [ExtractString, h]
  · intro h; simp only [ExtractString, h]
  · intro b h; simp only [ExtractString, h]
  · intro f h; simp only [ExtractString, h]
  · intro a h; simp only [ExtractString, h]
  · intro m h; simp only [ExtractString, h]
  · intro s h
    unfold ExtractString at h
    cases hE : Extract unmarshal jsonStr path with
    | error e => rw [hE] at h; cases h
    | ok x =>
      rw [hE] at h
      cases x with
      | string t => cases h; rfl
      | _ => cases h

/-- C10 on `{"a": 1}`: the path `a` reaches a number, which is a type mismatch, and the
path `b` fails with the error of `Extract`. -/
theorem ExtractString_post_witness :
    ExtractString (constDecoder docA1) [] "a" =
      .error (.TypeMismatchError "string" (.number one)) ∧
    ExtractString (constDecoder docA1) [] "b" = .error (.FieldNotFoundError "b") :=
  ⟨(ExtractString_post (constDecoder docA1) [] "a").2.2.2.2.1 one rfl,
    (ExtractString_post (constDecoder docA1) [] "b").1 _ rfl⟩


/-- C11: `ExtractFloat64` is a post-condition on `Extract`.  An error of `Extract` is returned
as is; a number is returned as is; a string (also one that spells a number), `nil`, a boolean,
a sequence or a mapping `x` gives `TypeMismatchError` with `x`; and a returned number is
always the number `Extract` returned. -/
theorem ExtractFloat64_post (unmarshal : List Nat → Except String JSON) (jsonStr : List Nat)
    (path : String) :
    (∀ e, Extract unmarshal jsonStr path = .error e →
      ExtractFloat64 unmarshal jsonStr path = .error e) ∧
    (∀ f, Extract unmarshal jsonStr path = .ok (.number f) →
      ExtractFloat64 unmarshal jsonStr path = .ok f) ∧
    (∀ s, Extract unmarshal jsonStr path = .ok (.string s) →
      ExtractFloat64 unmarshal jsonStr path =
        .error (.TypeMismatchError "number" (.string s))) ∧
    (Extract unmarshal jsonStr path = .ok .null →
      ExtractFloat64 unmarshal jsonStr path = .error (.TypeMismatchError "number" .null)) ∧
    (∀ b, Extract unmarshal jsonStr path = .ok (.bool b) →
      ExtractFloat64 unmarshal jsonStr path =
        .error (.TypeMismatchError "number" (.bool b))) ∧
    (∀ a, Extract unmarshal jsonStr path = .ok (.array a) →
      ExtractFloat64 unmarshal jsonStr path =
        .error (.TypeMismatchError "number" (.array a))) ∧
    (∀ m, Extract unmarshal jsonStr path = .ok (.object m) →
      ExtractFloat64 unmarshal jsonStr path =
        .error (.TypeMismatchError "number" (.object m))) ∧
    (∀ f, ExtractFloat64 unmarshal jsonStr path = .ok f →
      Extract unmarshal jsonStr path = .ok (.number f)) := by
  refine ⟨?_, ?_, ?_, ?_, ?_, ?_, ?_, ?_⟩
  · intro e h; simp only [ExtractFloat64, h]
  · intro f h; simp only [ExtractFloat64, h]
  · intro s h; simp only [ExtractFloat64, h]
  · intro h; simp only [ExtractFloat64, h]
  · intro b h; simp only [ExtractFloat64, h]
  · intro a h; simp only [ExtractFloat64, h]
  · intro m h; simp only [ExtractFloat64, h]
  · intro f h
    unfold ExtractFloat64 at h
    cases hE : Extract unmarshal jsonStr path with
    | error e => rw [hE] at h; cases h
    | ok x =>
      rw [hE] at h
      cases x with
      | number g => cases h; rfl
      | _ => cases h

/-- C11 on `{"a": "7"}` and `{"a": 1}`: a string that spells a number is a type mismatch, and
a number is returned. -/
theorem ExtractFloat64_post_witness :
    ExtractFloat64 (constDecoder (.object [("a", .string "7")])) [] "a" =
      .error (.TypeMismatchError "number" (.string "7")) ∧
    ExtractFloat64 (constDecoder docA1) [] "a" = .ok one :=
  ⟨(ExtractFloat64_post (constDecoder (.object [("a", .string "7")])) [] "a").2.2.1 "7" rfl,
    (ExtractFloat64_post (constDecoder docA1) [] "a").2.1 one rfl⟩

/-! ## Malformed index segments -/

/-- A segment that begins with `[` and ends with `]` is a bracketed body. -/
theorem bracketed_eq_indexSegment (s : String) (rest : List Char)
    (hs : s.data = '[' :: rest) (hlast : s.data.getLast? = some ']') :
    ∃ body, s = indexSegment body := by
  obtain ⟨ys, hys⟩ := List.getLast?_eq_some_iff.mp hlast
  cases ys with
  | nil =>
    rw [hs] at hys
    simp only [List.nil_append, List.cons.injEq] at hys
    exact absurd hys.1 (by decide)
  | cons y ys =>
    refine ⟨String.mk ys, ?_⟩
    rw [hs] at hys
    simp only [List.cons_append, List.cons.injEq] at hys
    have hdata : s.data = '[' :: (ys ++ [']']) := by rw [hs, hys.2]
    cases s
    simp only at hdata
    rw [hdata]
    rfl

/-- C12: the empty bracket body.  On every sequence, of any length, the segment `[]` fails
with `InvalidIndexError` (the parser's syntax error on the empty text); it never returns a
value. -/
theorem extractArray_empty_body (a : List JSON) :
    extractArray (.array a) "[]" =
      .error (.InvalidIndexError "" ⟨"Atoi", "", .ErrSyntax⟩) ∧
    (∀ v, extractArray (.array a) "[]" ≠ .ok v) := by
  have h : extractArray (.array a) "[]" =
      .error (.InvalidIndexError "" ⟨"Atoi", "", .ErrSyntax⟩) :=
    extractArray_indexSegment a ""
  refine ⟨h, ?_⟩
  intro v hv
  rw [h] at hv
  cases hv


theorem extractArray_malformed (x : JSON) (s : String) (rest : List Char)
    (hs : s.data = '[' :: rest) (hlast : s.data.getLast? ≠ some ']') :
    extractArray x s = .error (.MalformedIndexError s) := by
  unfold extractArray
  cases hl : s.data.getLast? with
  | none =>
    rw [hs] at hl
    cases rest <;> simp [List.getLast?] at hl
  | some last =>
    have hne : last ≠ ']' := by
      rintro rfl
      exact hlast hl
    simp only [ne_eq, hne, not_false_eq_true, if_true]

theorem extractArray_not_array (x : JSON) (s : String)
    (hlast : s.data.getLast? = some ']') (hx : ∀ a, x ≠ .array a) :
    extractArray x s = .error (.NotAnArrayError s) := by
  cases x with
  | array a => exact absurd rfl (hx a)
  | _ => simp [extractArray, hlast]

/-- Whatever the segment, a value other than a sequence gives none of the results that are
produced after the type test. -/
theorem extractArray_of_not_array (x : JSON) (s : String) (hx : ∀ a, x ≠ .array a) :
    extractArray x s = .error (.runtimePanic "index out of range") ∨
    extractArray x s = .error (.MalformedIndexError s) ∨
    extractArray x s = .error (.NotAnArrayError s) := by
  cases hl : s.data.getLast? with
  | none =>
    left
    simp only [extractArray, hl]
  | some last =>
    by_cases hc : last = ']'
    · right; right
      exact extractArray_not_array x s (by rw [hl, hc]) hx
    · right; left
      simp only [extractArray, hl, ne_eq, hc, not_false_eq_true, if_true]

/-- C13: the order of the tests of `extractArray` on a segment beginning with `[`.  A segment
not ending with `]` fails with `MalformedIndexError` carrying it, whatever the value; a segment
ending with `]` on a value that is not a sequence fails with `NotAnArrayError` carrying it,
whatever the bracket body; `InvalidIndexError` and `IndexOutOfRangeError` arise only on a
sequence. -/
theorem extractArray_precedence (x : JSON) (s : String) (rest : List Char)
    (hs : s.data = '[' :: rest) :
    (s.data.getLast? ≠ some ']' → extractArray x s = .error (.MalformedIndexError s)) ∧
    (s.data.getLast? = some ']' → (∀ a, x ≠ .array a) →
      extractArray x s = .error (.NotAnArrayError s)) ∧
    (∀ p e, extractArray x s = .error (.InvalidIndexError p e) → ∃ a, x = .array a) ∧
    (∀ i n, extractArray x s = .error (.IndexOutOfRangeError i n) → ∃ a, x = .array a) := by
  refine ⟨extractArray_malformed x s rest hs, extractArray_not_array x s, ?_, ?_⟩
  · intro p e h
    by_contra hx
    have hx1 : ∀ a, x ≠ .array a := fun a ha => hx ⟨a, ha⟩
    rcases extractArray_of_not_array x s hx1 with h1 | h1 | h1 <;>
      (rw [h1] at h; cases h)
  · intro i n h
    by_contra hx
    have hx1 : ∀ a, x ≠ .array a := fun a ha => hx ⟨a, ha⟩
    rcases extractArray_of_not_array x s hx1 with h1 | h1 | h1 <;>
      (rw [h1] at h; cases h)

/-- C13 on the string value `"v"`: `[x` is malformed although the value is not a sequence,
and `[x]` is not-an-array although `x` is not an integer. -/
theorem extractArray_precedence_witness :
    extractArray (.string "v") "[x" = .error (.MalformedIndexError "[x") ∧
    extractArray (.string "v") "[x]" = .error (.NotAnArrayError "[x]") :=
  ⟨(extractArray_precedence (.string "v") "[x" ['x'] rfl).1 (by decide),
    (extractArray_precedence (.string "v") "[x]" ['x', ']'] rfl).2.1 (by decide)
      (fun a h => by cases h)⟩

/-- C15, refuted as stated: on the empty sequence the segment `[x]` fails with an
`InvalidIndexError` that carries `x`, the bracket body, and not the segment `[x]`. -/
theorem extractArray_invalid_index_counterexample :
    extractArray (.array []) "[x]" = .error (.InvalidIndexError "x" ⟨"Atoi", "x", .ErrSyntax⟩) ∧
    extractArray (.array []) "[x]" ≠ .error (.InvalidIndexError "[x]" ⟨"Atoi", "x", .ErrSyntax⟩) ∧
    ("x" : String) ≠ "[x]" := by
  refine ⟨rfl, ?_, by decide⟩
  intro h
  have h1 : (Except.error (Error.InvalidIndexError "x" ⟨"Atoi", "x", .ErrSyntax⟩) :
      Except Error JSON) = .error (.InvalidIndexError "[x]" ⟨"Atoi", "x", .ErrSyntax⟩) := h
  simp only [Except.error.injEq, Error.InvalidIndexError.injEq] at h1
  exact absurd h1.1 (by decide)

/-- C15, amended: when the bracket body of an index segment applied to a sequence is not a
valid integer, the `InvalidIndexError` carries the bracket body (the segment without its
brackets) together with the parser's error, which names `Atoi` and the same body. -/
theorem extractArray_invalid_index (a : List JSON) (body : String) (err : strconv.NumError)
    (hparse : strconv.Atoi body = .error err) :
    extractArray (.array a) (indexSegment body) = .error (.InvalidIndexError body err) ∧
    err.Func = "Atoi" ∧ err.Num = body := by
  refine ⟨?_, ?_⟩
  · rw [extractArray_indexSegment, hparse]
  · unfold strconv.Atoi at hparse
    simp only at hparse
    repeat' split at hparse
    all_goals first
      | (cases hparse; exact ⟨rfl, rfl⟩)
      | cases hparse

/-- C15 amended, on the sequence `[null]` and the segment `[1x]`. -/
theorem extractArray_invalid_index_witness :
    extractArray (.array [.null]) "[1x]" =
      .error (.InvalidIndexError "1x" ⟨"Atoi", "1x", .ErrSyntax⟩) :=
  (extractArray_invalid_index [.null] "1x" ⟨"Atoi", "1x", .ErrSyntax⟩ rfl).1


/-! ## Bounds of the accesses -/

theorem index_position (a : List JSON) (k : Int) (v : JSON) (h : index a k = .ok v) :
    ∃ n, n < a.length ∧ a[n]? = some v := by
  unfold index at h
  split at h
  · cases h
  · split at h
    · rename_i w hw
      cases h
      obtain ⟨hlt, _⟩ := List.getElem?_eq_some_iff.mp hw
      exact ⟨_, hlt, hw⟩
    · cases h

/-- A value returned by `extractArray` is an element of the sequence it was applied to. -/
theorem extractArray_position (x : JSON) (s : String) (v : JSON)
    (h : extractArray x s = .ok v) :
    ∃ a n, x = .array a ∧ n < a.length ∧ a[n]? = some v := by
  unfold extractArray at h
  split at h
  · cases h
  · split at h
    · cases h
    · split at h
      · rename_i a
        split at h
        · cases h
        · split at h
          · cases h
          · split at h
            · cases h
            · split at h
              · obtain ⟨n, hn, hv⟩ := index_position _ _ _ h
                exact ⟨a, n, rfl, hn, hv⟩
              · obtain ⟨n, hn, hv⟩ := index_position _ _ _ h
                exact ⟨a, n, rfl, hn, hv⟩
      · cases h

/-- On a segment beginning with `[`, `extractArray` does not panic. -/
theorem extractArray_no_panic (x : JSON) (s : String) (rest : List Char)
    (hs : s.data = '[' :: rest) (msg : String) :
    extractArray x s ≠ .error (.runtimePanic msg) := by
  intro h
  by_cases hlast : s.data.getLast? = some ']'
  · by_cases hx : ∃ a, x = .array a
    · obtain ⟨a, rfl⟩ := hx
      obtain ⟨body, rfl⟩ := bracketed_eq_indexSegment s rest hs hlast
      rw [extractArray_indexSegment] at h
      cases hp : strconv.Atoi body with
      | error err =>
        rw [hp] at h
        cases h
      | ok idx =>
        rw [hp] at h
        simp only at h
        split at h
        · cases h
        · split at h
          · obtain ⟨v, hv, _⟩ := index_ok a idx (by omega) (by omega)
            rw [hv] at h
            cases h
          · obtain ⟨v, hv, _⟩ := index_ok a ((a.length : Int) + idx) (by omega) (by omega)
            rw [hv] at h
            cases h
    · rw [extractArray_not_array x s hlast (fun a ha => hx ⟨a, ha⟩)] at h
      cases h
  · rw [extractArray_malformed x s rest hs hlast] at h
    cases h

/-- C17: no out-of-bounds access in index navigation.  On every value and every segment
beginning with `[`, `extractArray` ends without a bounds panic of the string slice or of the
element access; a returned value is the element at a position below the length of the
sequence; and the one-character segment `[` is rejected with `MalformedIndexError`. -/
theorem extractArray_in_bounds (x : JSON) (s : String) (rest : List Char)
    (hs : s.data = '[' :: rest) :
    (∀ msg, extractArray x s ≠ .error (.runtimePanic msg)) ∧
    ((∃ v, extractArray x s = .ok v) ∨ (∃ e, extractArray x s = .error e)) ∧
    (∀ v, extractArray x s = .ok v → ∃ a n, x = .array a ∧ n < a.length ∧ a[n]? = some v) ∧
    extractArray x "[" = .error (.MalformedIndexError "[") := by
  refine ⟨extractArray_no_panic x s rest hs, ?_, extractArray_position x s,
    extractArray_malformed x "[" [] rfl (by decide)⟩
  cases extractArray x s with
  | ok v => exact Or.inl ⟨v, rfl⟩
  | error e => exact Or.inr ⟨e, rfl⟩

/-- C17 on the sequence `[null, true]`: `[-1]` returns the element at position `1`, and the
segment `[` on its own is malformed. -/
theorem extractArray_in_bounds_witness :
    extractArray (.array [.null, .bool true]) "[-1]" = .ok (.bool true) ∧
    extractArray (.array [.null, .bool true]) "[-1]" ≠
      .error (.runtimePanic "index out of range") ∧
    extractArray (.array [.null, .bool true]) "[" = .error (.MalformedIndexError "[") :=
  ⟨rfl,
    (extractArray_in_bounds (.array [.null, .bool true]) "[-1]" ['-', '1', ']'] rfl).1
      "index out of range",
    (extractArray_in_bounds (.array [.null, .bool true]) "[-1]" ['-', '1', ']'] rfl).2.2.2⟩


/-! ## Reaching an empty segment -/

/-- After a successful walk of `pre`, the log holds exactly the segments of `pre`, followed by
the log of what comes next. -/
theorem walkTrace_append_ok (pre post : List String) : ∀ d v : JSON, walk d pre = .ok v →
    walkTrace d (pre ++ post) = ((walkTrace v post).1, pre ++ (walkTrace v post).2) := by
  induction pre with
  | nil =>
    intro d v h
    cases h
    rfl
  | cons piece pre ih =>
    intro d v h
    rw [walk] at h
    rw [List.cons_append, walkTrace]
    cases hdata : piece.data with
    | nil =>
      rw [hdata] at h
      cases h
    | cons c cs =>
      rw [hdata] at h
      simp only at h ⊢
      by_cases hc : c = '['
      · rw [if_pos hc] at h ⊢
        cases hd1 : extractArray d piece with
        | error e =>
          rw [hd1] at h
          cases h
        | ok d1 =>
          rw [hd1] at h
          simp only at h ⊢
          rw [ih d1 v h]
          rfl
      · rw [if_neg hc] at h ⊢
        cases hd1 : extractObject d piece with
        | error e =>
          rw [hd1] at h
          cases h
        | ok d1 =>
          rw [hd1] at h
          simp only at h ⊢
          rw [ih d1 v h]
          rfl

/-- C14: when the walk reaches an empty segment after the segments `pre` before it have
navigated successfully, to whatever value, `Extract` fails with `EmptySegmentError` and the
lookups made are exactly those of `pre`: none for the empty segment.  For every decoded
document the empty path and every path beginning with `.` fail so, without any lookup. -/
theorem Extract_reaches_empty_segment (unmarshal : List Nat → Except String JSON)
    (jsonStr : List Nat) (d : JSON) (hdec : unmarshal jsonStr = .ok d) :
    (∀ (path : String) (pre post : List String) (v : JSON),
      strings.Split path '.' = pre ++ "" :: post → walk d pre = .ok v →
      Extract unmarshal jsonStr path = .error .EmptySegmentError ∧
      (ExtractTrace unmarshal jsonStr path).2 = pre) ∧
    (Extract unmarshal jsonStr "" = .error .EmptySegmentError ∧
      (ExtractTrace unmarshal jsonStr "").2 = []) ∧
    (∀ (path : String) (rest : List Char), path.data = '.' :: rest →
      Extract unmarshal jsonStr path = .error .EmptySegmentError ∧
      (ExtractTrace unmarshal jsonStr path).2 = []) := by
  refine ⟨?_, ?_, ?_⟩
  · intro path pre post v hsplit hwalk
    constructor
    · simp only [Extract, hdec, hsplit, walk_append, hwalk]
      rfl
    · simp only [ExtractTrace, hdec, hsplit, walkTrace_append_ok pre _ d v hwalk]
      exact List.append_nil pre
  · simp only [Extract, ExtractTrace, hdec]
    exact ⟨rfl, rfl⟩
  · intro path rest hpath
    have hsplit : strings.Split path '.' = "" :: (strings.splitChars '.' rest).map String.mk := by
      rw [strings.Split, hpath, strings.splitChars, if_pos rfl]
      rfl
    simp only [Extract, ExtractTrace, hdec, hsplit]
    exact ⟨rfl, rfl⟩

/-- C14 on `{"a": 1}` and the path `a..b`: the walk of `a` succeeds, then the empty segment
is reached. -/
theorem Extract_reaches_empty_segment_witness :
    Extract (constDecoder docA1) [] "a..b" = .error .EmptySegmentError ∧
    (ExtractTrace (constDecoder docA1) [] "a..b").2 = ["a"] :=
  (Extract_reaches_empty_segment (constDecoder docA1) [] docA1 rfl).1 "a..b" ["a"] ["b"]
    (.number one) rfl rfl

/-! ## Keys no path can write -/

theorem splitChars_mem_no_sep (sep : Char) (l : List Char) : ∀ p : List Char,
    p ∈ strings.splitChars sep l → sep ∉ p := by
  induction l with
  | nil =>
    intro p hp
    simp only [strings.splitChars, List.mem_singleton] at hp
    rw [hp]
    exact List.not_mem_nil _
  | cons c cs ih =>
    intro p hp
    rw [strings.splitChars] at hp
    by_cases hc : c = sep
    · rw [if_pos hc] at hp
      rcases List.mem_cons.mp hp with h | h
      · rw [h]
        exact List.not_mem_nil _
      · exact ih p h
    · rw [if_neg hc] at hp
      cases hs : strings.splitChars sep cs with
      | nil => exact absurd hs (splitChars_ne_nil sep cs)
      | cons x xs =>
        rw [hs] at hp ih
        rcases List.mem_cons.mp hp with h | h
        · rw [h]
          intro hmem
          rcases List.mem_cons.mp hmem with h1 | h1
          · exact hc h1.symm
          · exact ih x (List.mem_cons_self _ _) h1
        · exact ih p (List.mem_cons_of_mem _ h)

/-- The first segment of a path fails on a mapping none of whose keys a segment can write. -/
theorem walk_unaddressable (m : List (String × JSON)) (piece : String) (ps : List String)
    (hdot : '.' ∉ piece.data)
    (hkeys : ∀ kv ∈ m, kv.1.data = [] ∨ '.' ∈ kv.1.data ∨ kv.1.data.head? = some '[') :
    walk (.object m) (piece :: ps) = .error .EmptySegmentError ∨
    walk (.object m) (piece :: ps) = .error (.MalformedIndexError piece) ∨
    walk (.object m) (piece :: ps) = .error (.NotAnArrayError piece) ∨
    walk (.object m) (piece :: ps) = .error (.FieldNotFoundError piece) := by
  rw [walk]
  cases hdata : piece.data with
  | nil => exact Or.inl rfl
  | cons c cs =>
    simp only
    by_cases hc : c = '['
    · rw [if_pos hc]
      by_cases hlast : piece.data.getLast? = some ']'
      · right; right; left
        rw [extractArray_not_array _ piece hlast (fun a h => by cases h)]
      · right; left
        rw [extractArray_malformed _ piece cs (by rw [hdata, hc]) hlast]
    · rw [if_neg hc]
      right; right; right
      cases hget : mapIndex m piece with
      | none => simp only [extractObject, hget]
      | some v =>
        exfalso
        rcases hkeys _ (mapIndex_mem m piece v hget) with h | h | h
        · rw [hdata] at h
          cases h
        · exact hdot h
        · rw [hdata] at h
          simp only [List.head?_cons, Option.some.injEq] at h
          exact hc h


/-- C16: keys no path can write.  The loop sends a segment to `extractArray` exactly when its
first character is `[`, and to `extractObject` otherwise; and on a mapping all of whose keys
are empty, contain `.` or begin with `[`, `Extract` fails for every path, with an error
about the first segment of the path. -/
theorem Extract_unaddressable (unmarshal : List Nat → Except String JSON)
    (jsonStr : List Nat) (m : List (String × JSON)) (path : String)
    (hdec : unmarshal jsonStr = .ok (.object m))
    (hkeys : ∀ kv ∈ m, kv.1.data = [] ∨ '.' ∈ kv.1.data ∨ kv.1.data.head? = some '[') :
    (∀ (d : JSON) (piece : String) (c : Char) (cs : List Char) (ps : List String),
      piece.data = c :: cs →
      (c = '[' → walk d (piece :: ps) =
        match extractArray d piece with
        | .error err => .error err
        | .ok rtn1 => walk rtn1 ps) ∧
      (c ≠ '[' → walk d (piece :: ps) =
        match extractObject d piece with
        | .error err => .error err
        | .ok rtn1 => walk rtn1 ps)) ∧
    (∀ v, Extract unmarshal jsonStr path ≠ .ok v) ∧
    (∃ piece, strings.Split path '.' ≠ [] ∧ (strings.Split path '.').head? = some piece ∧
      (Extract unmarshal jsonStr path = .error .EmptySegmentError ∨
       Extract unmarshal jsonStr path = .error (.MalformedIndexError piece) ∨
       Extract unmarshal jsonStr path = .error (.NotAnArrayError piece) ∨
       Extract unmarshal jsonStr path = .error (.FieldNotFoundError piece))) := by
  have hcases : ∃ piece, strings.Split path '.' ≠ [] ∧
      (strings.Split path '.').head? = some piece ∧
      (Extract unmarshal jsonStr path = .error .EmptySegmentError ∨
       Extract unmarshal jsonStr path = .error (.MalformedIndexError piece) ∨
       Extract unmarshal jsonStr path = .error (.NotAnArrayError piece) ∨
       Extract unmarshal jsonStr path = .error (.FieldNotFoundError piece)) := by
    cases hs : strings.splitChars '.' path.data with
    | nil => exact absurd hs (splitChars_ne_nil '.' path.data)
    | cons pc pcs =>
      have hdot : '.' ∉ pc :=
        splitChars_mem_no_sep '.' path.data pc (by rw [hs]; exact List.mem_cons_self _ _)
      have hsplit : strings.Split path '.' = String.mk pc :: pcs.map String.mk := by
        rw [strings.Split, hs]
        rfl
      refine ⟨String.mk pc, by rw [hsplit]; exact List.cons_ne_nil _ _, by rw [hsplit]; rfl, ?_⟩
      simp only [Extract, hdec, hsplit]
      exact walk_unaddressable m (String.mk pc) _ hdot hkeys
  refine ⟨?_, ?_, hcases⟩
  · intro d piece c cs ps hdata
    constructor
    · intro hc
      rw [walk]
      simp only [hdata, if_pos hc]
    · intro hc
      rw [walk]
      simp only [hdata, if_neg hc]
  · intro v hv
    obtain ⟨piece, _, _, h | h | h | h⟩ := hcases <;>
      (rw [h] at hv; cases hv)

/-- C16 on the mapping `{"a.b": 1, "[0]": 1, "": 1}`: the path `a.b` does not select the entry
of the key `a.b`. -/
theorem Extract_unaddressable_witness :
    Extract
      (constDecoder (.object [("a.b", .number one), ("[0]", .number one), ("", .number one)]))
      [] "a.b" ≠ .ok (.number one) :=
  (Extract_unaddressable
    (constDecoder (.object [("a.b", .number one), ("[0]", .number one), ("", .number one)]))
    [] [("a.b", .number one), ("[0]", .number one), ("", .number one)] "a.b" rfl
    (by
      intro kv hkv
      simp only [List.mem_cons, List.mem_singleton, List.not_mem_nil, or_false] at hkv
      rcases hkv with rfl | rfl | rfl
      · exact Or.inr (Or.inl (by decide))
      · exact Or.inr (Or.inr (by decide))
      · exact Or.inl (by decide))).2.1 (.number one)


/-! ## Depth of the result -/

theorem splitChars_length (sep : Char) (l : List Char) :
    (strings.splitChars sep l).length = l.count sep + 1 := by
  induction l with
  | nil => rfl
  | cons c cs ih =>
    rw [strings.splitChars]
    by_cases hc : c = sep
    · rw [if_pos hc, List.length_cons, ih, hc, List.count_cons_self]
    · rw [if_neg hc, List.count_cons_of_ne (fun h => hc h.symm)]
      cases hs : strings.splitChars sep cs with
      | nil => exact absurd hs (splitChars_ne_nil sep cs)
      | cons x xs =>
        rw [hs] at ih
        simpa using ih

theorem extractObject_child (d v : JSON) (piece : String) (h : extractObject d piece = .ok v) :
    IsChild d v := by
  cases d with
  | object m =>
    right
    refine ⟨m, piece, rfl, mapIndex_mem m piece v ?_⟩
    simp only [extractObject] at h
    split at h
    · cases h
    · cases h
      assumption
  | _ => cases h

theorem extractArray_child (d v : JSON) (piece : String) (h : extractArray d piece = .ok v) :
    IsChild d v := by
  obtain ⟨a, n, rfl, _, hv⟩ := extractArray_position d piece v h
  exact Or.inl ⟨a, rfl, List.getElem?_mem hv⟩

/-- A successful walk makes one child step per segment. -/
theorem walk_childSteps (ps : List String) : ∀ d v : JSON, walk d ps = .ok v →
    ChildSteps ps.length d v := by
  induction ps with
  | nil =>
    intro d v h
    cases h
    rfl
  | cons piece ps ih =>
    intro d v h
    rw [walk] at h
    cases hdata : piece.data with
    | nil =>
      rw [hdata] at h
      cases h
    | cons c cs =>
      rw [hdata] at h
      simp only at h
      by_cases hc : c = '['
      · rw [if_pos hc] at h
        cases hd1 : extractArray d piece with
        | error e =>
          rw [hd1] at h
          cases h
        | ok d1 =>
          rw [hd1] at h
          exact ⟨d1, extractArray_child d d1 piece hd1, ih d1 v h⟩
      · rw [if_neg hc] at h
        cases hd1 : extractObject d piece with
        | error e =>
          rw [hd1] at h
          cases h
        | ok d1 =>
          rw [hd1] at h
          exact ⟨d1, extractObject_child d d1 piece hd1, ih d1 v h⟩

theorem sizeOf_child (d v : JSON) (h : IsChild d v) : sizeOf v < sizeOf d := by
  rcases h with ⟨a, rfl, hv⟩ | ⟨m, k, rfl, hv⟩
  · have := List.sizeOf_lt_of_mem hv
    simp only [JSON.array.sizeOf_spec]
    omega
  · have h1 := List.sizeOf_lt_of_mem hv
    simp only [JSON.object.sizeOf_spec]
    simp only [Prod.mk.sizeOf_spec] at h1
    omega

theorem sizeOf_childSteps (k : Nat) : ∀ d v : JSON, ChildSteps k d v →
    sizeOf v + k ≤ sizeOf d := by
  induction k with
  | zero =>
    intro d v h
    have hv : v = d := h
    rw [hv]
    exact Nat.le_refl _
  | succ k ih =>
    intro d v h
    obtain ⟨d1, hchild, hrest⟩ := h
    have h1 := sizeOf_child d d1 hchild
    have h2 := ih d1 v hrest
    omega

/-- C18: depth equals segment count.  A path splits into `k` segments, where `k` is one more
than the number of `.` in it, so `k >= 1`; when `Extract` succeeds on a decoded document, the
value it returns is reached from the document by exactly `k` child steps; hence `Extract`
never returns the document itself. -/
theorem Extract_depth (unmarshal : List Nat → Except String JSON) (jsonStr : List Nat)
    (d : JSON) (path : String) (hdec : unmarshal jsonStr = .ok d) :
    (strings.Split path '.').length = path.data.count '.' + 1 ∧
    1 ≤ (strings.Split path '.').length ∧
    (∀ v, Extract unmarshal jsonStr path = .ok v →
      ChildSteps (path.data.count '.' + 1) d v) ∧
    Extract unmarshal jsonStr path ≠ .ok d := by
  have hlen : (strings.Split path '.').length = path.data.count '.' + 1 := by
    rw [strings.Split, List.length_map, splitChars_length]
  have hsteps : ∀ v, Extract unmarshal jsonStr path = .ok v →
      ChildSteps (path.data.count '.' + 1) d v := by
    intro v hv
    simp only [Extract, hdec] at hv
    rw [← hlen]
    exact walk_childSteps _ d v hv
  refine ⟨hlen, by omega, hsteps, ?_⟩
  intro hd
  have := sizeOf_childSteps _ d d (hsteps d hd)
  omega

/-- C18 on the documented example: `a.[-1].val` has three segments and the number `7` is
three child steps below the document. -/
theorem Extract_depth_witness :
    (strings.Split "a.[-1].val" '.').length = 3 ∧
    ChildSteps 3 docA (.number seven) ∧
    Extract (constDecoder docA) [] "a.[-1].val" ≠ .ok docA :=
  ⟨(Extract_depth (constDecoder docA) [] docA "a.[-1].val" rfl).1,
    (Extract_depth (constDecoder docA) [] docA "a.[-1].val" rfl).2.2.1 (.number seven) rfl,
    (Extract_depth (constDecoder docA) [] docA "a.[-1].val" rfl).2.2.2⟩


/-! ## Index texts beyond the range of `int` -/

theorem digitVal_le (c : Char) (h : strconv.isDigit c = true) : strconv.digitVal c ≤ 9 := by
  simp only [strconv.isDigit, Bool.and_eq_true, decide_eq_true_eq] at h
  simp only [strconv.digitVal]
  omega

theorem le_decimalFrom (ds : List Char) : ∀ n, n ≤ decimalFrom n ds := by
  induction ds with
  | nil => intro n; exact Nat.le_refl _
  | cons c cs ih =>
    intro n
    have h := ih (n * 10 + strconv.digitVal c)
    have e : decimalFrom n (c :: cs) = decimalFrom (n * 10 + strconv.digitVal c) cs := rfl
    omega

theorem decimalFrom_lt (ds : List Char) (hdig : ∀ c ∈ ds, strconv.isDigit c = true) :
    ∀ n, decimalFrom n ds < (n + 1) * 10 ^ ds.length := by
  induction ds with
  | nil =>
    intro n
    show n < (n + 1) * 10 ^ 0
    omega
  | cons c cs ih =>
    intro n
    have hc := digitVal_le c (hdig c (List.mem_cons_self _ _))
    have h := ih (fun x hx => hdig x (List.mem_cons_of_mem _ hx)) (n * 10 + strconv.digitVal c)
    have e : decimalFrom n (c :: cs) = decimalFrom (n * 10 + strconv.digitVal c) cs := rfl
    have hmul : (n * 10 + strconv.digitVal c + 1) * 10 ^ cs.length ≤
        ((n + 1) * 10) * 10 ^ cs.length := Nat.mul_le_mul_right _ (by omega)
    rw [e, List.length_cons, pow_succ]
    calc decimalFrom (n * 10 + strconv.digitVal c) cs
        < (n * 10 + strconv.digitVal c + 1) * 10 ^ cs.length := h
      _ ≤ ((n + 1) * 10) * 10 ^ cs.length := hmul
      _ = (n + 1) * (10 ^ cs.length * 10) := by ring

theorem atoiFastLoop_digits (ds : List Char) (hdig : ∀ c ∈ ds, strconv.isDigit c = true) :
    ∀ n, strconv.atoiFastLoop n ds = some (decimalFrom n ds) := by
  induction ds with
  | nil => intro n; rfl
  | cons c cs ih =>
    intro n
    rw [strconv.atoiFastLoop, if_pos (hdig c (List.mem_cons_self _ _)),
      ih (fun x hx => hdig x (List.mem_cons_of_mem _ hx))]
    rfl

/-- The loop of `ParseUint` on a run of digits: their value if it is a `uint64`, the range
error otherwise. -/
theorem parseUintLoop_digits (ds : List Char) (hdig : ∀ c ∈ ds, strconv.isDigit c = true) :
    ∀ n, n < 2 ^ 64 →
    strconv.parseUintLoop n ds =
      if decimalFrom n ds < 2 ^ 64 then (decimalFrom n ds, none)
      else (strconv.maxUint64, some .ErrRange) := by
  induction ds with
  | nil =>
    intro n hn
    show (n, none) = if n < 2 ^ 64 then (n, none) else _
    rw [if_pos hn]
  | cons c cs ih =>
    intro n hn
    have hc := digitVal_le c (hdig c (List.mem_cons_self _ _))
    have e : decimalFrom n (c :: cs) = decimalFrom (n * 10 + strconv.digitVal c) cs := rfl
    have hge := le_decimalFrom cs (n * 10 + strconv.digitVal c)
    rw [strconv.parseUintLoop, if_pos (hdig c (List.mem_cons_self _ _)), e]
    by_cases h1 : n ≥ strconv.maxUint64 / 10 + 1
    · rw [if_pos h1, if_neg]
      simp only [strconv.maxUint64] at h1
      omega
    · rw [if_neg h1]
      simp only [strconv.maxUint64] at h1 ⊢
      by_cases h2 : n * 10 + strconv.digitVal c < 2 ^ 64
      · have h3 : (n * 10 % 2 ^ 64 + strconv.digitVal c) % 2 ^ 64 =
            n * 10 + strconv.digitVal c := by omega
        have h4 : ¬ (n * 10 + strconv.digitVal c < n * 10 % 2 ^ 64 ∨
            n * 10 + strconv.digitVal c > 2 ^ 64 - 1) := by omega
        simp only [h3, h4, if_false]
        exact ih (fun x hx => hdig x (List.mem_cons_of_mem _ hx)) _ h2
      · have h4 : (n * 10 % 2 ^ 64 + strconv.digitVal c) % 2 ^ 64 < n * 10 % 2 ^ 64 ∨
            (n * 10 % 2 ^ 64 + strconv.digitVal c) % 2 ^ 64 > 2 ^ 64 - 1 := by omega
        simp only [h4, if_true]
        rw [if_neg]
        omega


theorem parseUint_digits (ds : List Char) (hne : ds ≠ [])
    (hdig : ∀ c ∈ ds, strconv.isDigit c = true) :
    strconv.ParseUint ds =
      if decimalValue ds < 2 ^ 64 then (decimalValue ds, none)
      else (strconv.maxUint64, some .ErrRange) := by
  rw [strconv.ParseUint, if_neg hne]
  exact parseUintLoop_digits ds hdig 0 (by omega)

/-- A run of digits denoting at least `2^63` has at least 19 digits. -/
theorem length_of_large (ds : List Char) (hdig : ∀ c ∈ ds, strconv.isDigit c = true)
    (hbig : 2 ^ 63 ≤ decimalValue ds) : 19 ≤ ds.length := by
  by_contra hlen
  have h1 := decimalFrom_lt ds hdig 0
  have h2 : 10 ^ ds.length ≤ 10 ^ 18 := Nat.pow_le_pow_right (by omega) (by omega)
  have h3 : decimalValue ds = decimalFrom 0 ds := rfl
  omega

/-- On a well-formed decimal text that does not fit a 64-bit `int`, `Atoi` fails with the
range error. -/
theorem Atoi_range_error (body : String) (sign ds : List Char)
    (hsign : sign = [] ∨ sign = ['+'] ∨ sign = ['-']) (hne : ds ≠ [])
    (hdig : ∀ c ∈ ds, strconv.isDigit c = true) (hbody : body.data = sign ++ ds)
    (hrange : signedValue sign ds > maxInt ∨ signedValue sign ds < minInt) :
    strconv.Atoi body = .error ⟨"Atoi", body, .ErrRange⟩ := by
  simp only [signedValue, maxInt, minInt] at hrange
  obtain ⟨c, cs, rfl⟩ := List.exists_cons_of_ne_nil hne
  have hc := isDigit_ne_sign c (hdig c (List.mem_cons_self _ _))
  have hpu := parseUint_digits (c :: cs) hne hdig
  rcases hsign with rfl | rfl | rfl
  · have hbig : 2 ^ 63 ≤ decimalValue (c :: cs) := by
      rw [if_neg (by simp)] at hrange
      omega
    have hlen := length_of_large (c :: cs) hdig hbig
    simp only [List.nil_append] at hbody
    unfold strconv.Atoi
    simp only [hbody]
    rw [if_neg (by omega)]
    simp only [strconv.ParseInt, hc.1, hc.2, or_self, if_false, hpu]
    by_cases h64 : decimalValue (c :: cs) < 2 ^ 64
    · simp only [h64, if_true, decide_False, Bool.not_false, Bool.true_and,
        decide_eq_true_eq, ge_iff_le, hbig]
    · simp only [h64, if_false, decide_False, Bool.not_false, Bool.true_and,
        decide_eq_true_eq, strconv.maxUint64]
      rfl
  · have hbig : 2 ^ 63 ≤ decimalValue (c :: cs) := by
      rw [if_neg (by simp)] at hrange
      omega
    have hlen := length_of_large (c :: cs) hdig hbig
    simp only [List.singleton_append] at hbody
    unfold strconv.Atoi
    simp only [hbody]
    rw [if_neg (by simp only [List.length_cons] at hlen ⊢; omega)]
    simp only [strconv.ParseInt, true_or, if_true, hpu]
    by_cases h64 : decimalValue (c :: cs) < 2 ^ 64
    · simp only [h64, if_true, show ¬ ('+' = '-') by decide, decide_False, Bool.not_false,
        Bool.true_and, decide_eq_true_eq, ge_iff_le, hbig]
    · simp only [h64, if_false, show ¬ ('+' = '-') by decide, decide_False, Bool.not_false,
        Bool.true_and, decide_eq_true_eq, strconv.maxUint64]
      rfl
  · have hbig : 2 ^ 63 < decimalValue (c :: cs) := by
      rw [if_pos rfl] at hrange
      omega
    have hlen := length_of_large (c :: cs) hdig (by omega)
    simp only [List.singleton_append] at hbody
    unfold strconv.Atoi
    simp only [hbody]
    rw [if_neg (by simp only [List.length_cons] at hlen ⊢; omega)]
    simp only [strconv.ParseInt, or_true, if_true, hpu]
    by_cases h64 : decimalValue (c :: cs) < 2 ^ 64
    · simp only [h64, if_true, decide_True, Bool.not_true, Bool.false_and, Bool.true_and,
        decide_eq_true_eq, gt_iff_lt, hbig, Bool.false_eq_true, if_false]
    · simp only [h64, if_false, decide_True, Bool.not_true, Bool.false_and, Bool.true_and,
        decide_eq_true_eq, strconv.maxUint64, Bool.false_eq_true]
      rfl


/-- C19: overflow of the index text.  On every sequence, an index segment whose bracket body
is a well-formed decimal integer (an optional sign, then digits) greater than `2^63 - 1` or
less than `-2^63` fails with `InvalidIndexError` carrying the parser's range error; it does
not fail with `IndexOutOfRangeError` and it selects no element. -/
theorem extractArray_index_overflow (a : List JSON) (body : String) (sign ds : List Char)
    (hsign : sign = [] ∨ sign = ['+'] ∨ sign = ['-']) (hne : ds ≠ [])
    (hdig : ∀ c ∈ ds, strconv.isDigit c = true) (hbody : body.data = sign ++ ds)
    (hrange : signedValue sign ds > maxInt ∨ signedValue sign ds < minInt) :
    extractArray (.array a) (indexSegment body) =
      .error (.InvalidIndexError body ⟨"Atoi", body, .ErrRange⟩) ∧
    (∀ i n, extractArray (.array a) (indexSegment body) ≠
      .error (.IndexOutOfRangeError i n)) ∧
    (∀ v, extractArray (.array a) (indexSegment body) ≠ .ok v) := by
  have h : extractArray (.array a) (indexSegment body) =
      .error (.InvalidIndexError body ⟨"Atoi", body, .ErrRange⟩) := by
    rw [extractArray_indexSegment, Atoi_range_error body sign ds hsign hne hdig hbody hrange]
  refine ⟨h, ?_, ?_⟩
  · intro i n hi
    rw [h] at hi
    cases hi
  · intro v hv
    rw [h] at hv
    cases hv

/-- C19 on the sequence `[null]`: the bodies `9223372036854775808` (`2^63`) and
`-9223372036854775809` (`-2^63 - 1`) give the range error. -/
theorem extractArray_index_overflow_witness :
    extractArray (.array [.null]) "[9223372036854775808]" =
      .error (.InvalidIndexError "9223372036854775808"
        ⟨"Atoi", "9223372036854775808", .ErrRange⟩) ∧
    extractArray (.array [.null]) "[-9223372036854775809]" =
      .error (.InvalidIndexError "-9223372036854775809"
        ⟨"Atoi", "-9223372036854775809", .ErrRange⟩) :=
  ⟨(extractArray_index_overflow [.null] "9223372036854775808" []
      "9223372036854775808".data (Or.inl rfl) (by decide) (by decide) rfl
      (Or.inl (by decide))).1,
    (extractArray_index_overflow [.null] "-9223372036854775809" ['-']
      "9223372036854775809".data (Or.inr (Or.inr rfl)) (by decide) (by decide) rfl
      (Or.inr (by decide))).1⟩

end JsonPath
